import Mathlib

namespace LibvirtAws

/-!
Verification of the libvirt-aws emulation engine against its specification.

Each section embeds a slice of the Python sources (`libvirt_aws/…`) as
executable Lean definitions and proves (or refutes) the corresponding
spec sentences.  Machine values (IPv4 addresses, libvirt state codes,
timestamps) are embedded as `Nat`/`Int`; SQL tables as Lean lists of row
structures; Python dicts as association lists or functions into `Option`.
-/

/-! ## Instance shadow table (`main.py` `init_db`, `handlers/instances.py`)

`init_db` creates the instance shadow table with

    CREATE TABLE IF NOT EXISTS ec2_instance (
        name  text not null,
        state text check(state IN ('running', 'terminated')) not null,
        terminated_at timestamptz,
        UNIQUE (name)
    )

while the instance handlers read and write columns `id`, `state`,
`availability_zone`, `subnet_id`, `terminated_at` and the states
`running`, `stopping`, `terminated` (plus the values of
`domain_state_lookup` written back by `describe_instances`).
-/

/-- The CHECK constraint on `ec2_instance.state` in `init_db`
(`main.py`): `state IN ('running', 'terminated')`. -/
def ec2InstanceStateCheck (s : String) : Bool :=
  s = "running" || s = "terminated"

/-- `run_instance` inserts rows with
`INSERT INTO ec2_instance (id, state, ...) VALUES (?, 'running', ...)`. -/
def runInstancesInsertState : String := "running"

/-- `stop_instances` issues `UPDATE ec2_instance SET state = 'stopping'`. -/
def stopInstancesTargetState : String := "stopping"

/-- `terminate_instances` issues `UPDATE ec2_instance SET state = 'terminated'`. -/
def terminateInstancesTargetState : String := "terminated"

/-- `domain_state_lookup` from `handlers/instances.py`: libvirt domain state
code mapped to the aws instance state string. -/
def domain_state_lookup : List (Nat × String) :=
  [(0, "??? no-state"),
   (1, "running"),
   (2, "??? blocked"),
   (3, "stopped"),
   (4, "stopping"),
   (5, "stopped"),
   (6, "??? crashed"),
   (7, "stopped")]

/-- `domstate` from `handlers/instances.py`: dictionary lookup of the libvirt
state code (`none` models the `KeyError` for unknown codes). -/
def domstate (virstate : Nat) : Option String :=
  domain_state_lookup.lookup virstate

/-- One row of the `ec2_instance` shadow table as the instance handlers use
it.  Timestamps are embedded as seconds (`Int`). -/
structure InstanceRow where
  id : String
  state : String
  availabilityZone : String
  subnetId : String
  terminatedAt : Option Int
  deriving DecidableEq, Repr

/-- The deletion condition of `garbage_collect_terminated_instances`
(`handlers/instances.py`): `terminated_at IS NOT NULL AND terminated_at <
now - 2 minutes`. -/
def gcDeletes (now : Int) (r : InstanceRow) : Bool :=
  match r.terminatedAt with
  | none => false
  | some t => t < now - 120

/-- `garbage_collect_terminated_instances`: delete every row matching
`gcDeletes`, keep the rest. -/
def garbage_collect_terminated_instances (now : Int) (tbl : List InstanceRow) :
    List InstanceRow :=
  tbl.filter (fun r => ! gcDeletes now r)

/-! ## Elastic IP shadow table (`handlers/ips.py`) -/

/-- One row of the `ip_addresses` table (`main.py` schema; the
`private_ip_address` column is unused by the address handlers). -/
structure IpRow where
  allocationId : String
  ipAddress : String
  associationId : Option String
  instanceId : Option String
  deriving DecidableEq, Repr

abbrev IpTable := List IpRow

/-- The row invariant claimed in the spec:
`association_id IS NULL ↔ instance_id IS NULL`. -/
def ipRowInv (r : IpRow) : Prop :=
  r.associationId = none ↔ r.instanceId = none

instance (r : IpRow) : Decidable (ipRowInv r) := by
  unfold ipRowInv; infer_instance

def ipTableInv (t : IpTable) : Prop := ∀ r ∈ t, ipRowInv r

instance (t : IpTable) : Decidable (ipTableInv t) := by
  unfold ipTableInv; infer_instance

/-- The database write of `allocate_address`:
`INSERT INTO ip_addresses (allocation_id, ip_address) VALUES (?, ?)` —
association and instance columns are left NULL. -/
def allocate_address_insert (t : IpTable) (allocId ip : String) : IpTable :=
  t ++ [⟨allocId, ip, none, none⟩]

/-- The database write of `associate_address`: one
`UPDATE ip_addresses SET association_id = ?, instance_id = ? WHERE
allocation_id = ?`. -/
def associate_address_update (t : IpTable) (assocId instId allocId : String) :
    IpTable :=
  t.map fun r =>
    if r.allocationId = allocId then
      { r with associationId := some assocId, instanceId := some instId }
    else r

/-- The database write of `disassociate_address`: one
`UPDATE ip_addresses SET association_id = NULL, instance_id = NULL WHERE
association_id = ?`. -/
def disassociate_address_update (t : IpTable) (assocId : String) : IpTable :=
  t.map fun r =>
    if r.associationId = some assocId then
      { r with associationId := none, instanceId := none }
    else r

/-! ## Address allocation (`handlers/ips.py` `allocate_address`) -/

/-- `PUBLIC_IP_BLOCK_SIZE` from `handlers/ips.py`. -/
def PUBLIC_IP_BLOCK_SIZE : Nat := 16

/-- The upper bound of the scan in `allocate_address`:
`max(ip_range_start + PUBLIC_IP_BLOCK_SIZE, int(net.static_ip_range[1]))`. -/
def allocScanStop (rangeStart rangeEnd : Nat) : Nat :=
  max (rangeStart + PUBLIC_IP_BLOCK_SIZE) rangeEnd

/-- The `for int_addr in range(start, end)` loop of `allocate_address`:
first address in the scan range not present in `ip_addresses`.
Addresses are embedded as their integer value (`int(IPv4Address)`). -/
def allocate_address_pick (existing : Finset Nat) (rangeStart rangeEnd : Nat) :
    Option Nat :=
  (List.range' rangeStart (allocScanStop rangeStart rangeEnd - rangeStart)).find?
    (fun a => decide (a ∉ existing))

/-! ## StopInstances (`handlers/instances.py` `stop_instances`) -/

/-- The polling loop of `stop_instances`:
`while domstate(virdom) != 'stopped': virdom.shutdown(); await sleep(5)`.
`stoppedAt n` tells whether the domain reports `stopped` at the n-th poll;
the result is the number of shutdown requests issued (`none` = the fuel ran
out, i.e. the unbounded loop has not terminated within `fuel` polls). -/
def stop_instances_loop (stoppedAt : Nat → Bool) : Nat → Nat → Option Nat
  | 0, _ => none
  | fuel + 1, n => if stoppedAt n then some n else stop_instances_loop stoppedAt fuel (n + 1)

/-- The outcome of `stop_instances` for one instance id. -/
structure StopResult where
  dbState : String
  shutdownCalls : Nat
  deriving DecidableEq, Repr

/-- `stop_instances` for one accepted instance id: first
`UPDATE ec2_instance SET state = 'stopping' WHERE id = ? AND terminated_at
IS NULL`, then the shutdown polling loop; the shadow row is not written
again after the loop.  `domStateAt n` is the libvirt state code reported
at the n-th poll. -/
def stop_instances_one (rowState : String) (terminatedAt : Option Int)
    (domStateAt : Nat → Nat) (fuel : Nat) : Option StopResult :=
  match stop_instances_loop (fun n => domstate (domStateAt n) = some "stopped") fuel 0 with
  | some n =>
      some { dbState := if terminatedAt = none then stopInstancesTargetState else rowState,
             shutdownCalls := n }
  | none => none

/-! ## DescribeInstances state refresh (`handlers/instances.py`) -/

/-- The response and shadow-row effect of `describe_instances` for one
instance id: a terminated row is reported as is; otherwise the live libvirt
state is read via `domstate` (`none` models the `KeyError` on an unknown
code), the shadow row is updated when it drifted, and the response reports
the row value read before the refresh. -/

structure DescribeOut where
  reportedState : String
  newDbState : String
  deriving DecidableEq, Repr

def describe_instance_state (rowState : String) (virstate : Nat) :
    Option DescribeOut :=
  if rowState = "terminated" then
    some { reportedState := rowState, newDbState := rowState }
  else
    match domstate virstate with
    | none => none
    | some live =>
        some { reportedState := rowState,
               newDbState := if live = rowState then rowState else live }

/-! ## ChangeResourceRecordSets (`handlers/dns.py`)

The handler seeds a working table from the current libvirt record set
(`table = {k: set(r) for k, r in net.dns_records.items()}`) and folds the
parsed changes over it.  Keys are `(Type, Name)` pairs, values are Python
sets of record values.
-/

/-- One parsed change: `(Action, Type, Name, {Values})`.  The action is the
raw string from the request body. -/
structure RRChange where
  action : String
  rtype : String
  name : String
  values : Finset String
  deriving DecidableEq

/-- The working table of `change_resource_record_sets`: a Python dict from
`(Type, Name)` to the stored value set. -/
def RRTable := (String × String) → Option (Finset String)

/-- Python `table[key] = values` / `table.pop(key)` (with `v = none`). -/
def rrSet (t : RRTable) (key : String × String) (v : Option (Finset String)) :
    RRTable :=
  fun k => if k = key then v else t k

inductive RRErr where
  | invalidChangeBatch
  | invalidInput
  deriving DecidableEq, Repr

/-- The per-change body of the loop in `change_resource_record_sets`
(dns.py lines 758-788). -/
def applyChange (t : RRTable) (c : RRChange) : Except RRErr RRTable :=
  let key := (c.rtype, c.name)
  if c.action = "CREATE" then
    match t key with
    | some _ => .error .invalidChangeBatch
    | none => .ok (rrSet t key (some c.values))
  else if c.action = "DELETE" then
    if t key = some c.values then .ok (rrSet t key none)
    else .error .invalidChangeBatch
  else if c.action = "UPSERT" then
    .ok (rrSet t key (some c.values))
  else
    .error .invalidInput

/-- The whole change loop: sequential application with early exit on the
first raised error, as in the Python `for change in changes` loop. -/
def applyChanges : RRTable → List RRChange → Except RRErr RRTable
  | t, [] => .ok t
  | t, c :: cs =>
    match applyChange t c with
    | .ok t1 => applyChanges t1 cs
    | .error e => .error e

def rrKey (c : RRChange) : String × String := (c.rtype, c.name)

/-- The batch of the C1 counterexample: CREATE then matching DELETE of the
same `(type, name)` key. -/
def c1CexBatch : List RRChange :=
  [⟨"CREATE", "A", "x.example.", {"1.2.3.4"}⟩,
   ⟨"DELETE", "A", "x.example.", {"1.2.3.4"}⟩]

/-- The seed table of the C1 witness: one stored record set. -/
def c1T0 : RRTable :=
  fun k => if k = ("A", "old.example.") then some {"5.6.7.8"} else none

/-- The batch of the C1 witness: CREATE, UPSERT and DELETE on three
pairwise distinct keys. -/
def c1Batch : List RRChange :=
  [⟨"CREATE", "A", "www.example.", {"1.2.3.4"}⟩,
   ⟨"UPSERT", "TXT", "t.example.", {"abc"}⟩,
   ⟨"DELETE", "A", "old.example.", {"5.6.7.8"}⟩]

/-- The table produced by the C1 witness batch. -/
def c1Final : RRTable :=
  rrSet (rrSet (rrSet c1T0 ("A", "www.example.") (some {"1.2.3.4"}))
    ("TXT", "t.example.") (some {"abc"})) ("A", "old.example.") none

/-! ## Python string primitives

Python `str` values are embedded as Lean `String` (a list of unicode
characters); `str.split`, `str.join`, slicing and comparison are embedded
as executable functions over `List Char` so that every theorem can be
evaluated on concrete inputs.
-/

/-- Python `s.split(sep)` for a one-character separator: empty pieces are
preserved and `"".split(sep) == [""]`. -/
def pySplitChar (sep : Char) : List Char → List (List Char)
  | [] => [[]]
  | c :: rest =>
    if c = sep then [] :: pySplitChar sep rest
    else
      match pySplitChar sep rest with
      | s :: ss => (c :: s) :: ss
      | [] => [[c]]

/-- Python `sep.join(items)` for a one-character separator. -/
def pyJoinChar (sep : Char) : List (List Char) → List Char
  | [] => []
  | [s] => s
  | s :: ss => s ++ sep :: pyJoinChar sep ss

/-- Python `s[1:-1]`. -/
def pyStrip1 (cs : List Char) : List Char := (cs.drop 1).dropLast

/-- Python string comparison `a < b`: lexicographic by code point. -/
def charListLt : List Char → List Char → Bool
  | [], [] => false
  | [], _ :: _ => true
  | _ :: _, [] => false
  | a :: as, b :: bs =>
    if a < b then true
    else if b < a then false
    else charListLt as bs

/-- Insert `x` into an ascending list, before the first element `y` with
`lt y x = false` (so that a stable sort results). -/
def insertSorted (lt : α → α → Bool) (x : α) : List α → List α
  | [] => [x]
  | y :: ys => if lt y x then y :: insertSorted lt x ys else x :: y :: ys

/-- A stable ascending sort with strict comparison `lt`: the embedding of
Python `sorted` / `list.sort` (any two stable sorts under the same
comparison agree). -/
def pySort (lt : α → α → Bool) : List α → List α
  | [] => []
  | x :: xs => insertSorted lt x (pySort lt xs)

/-- Python `sorted(values)` on strings. -/
def pySortStrings (l : List String) : List String :=
  pySort (fun a b => charListLt a.data b.data) l

/-! ## NS record side channel (`objects.py` `Network`) -/

/-- The double-quoted form of one NS target (`f'"{value}"'` in
`Network.get_dns_diff`). -/
def nsQuote (v : String) : List Char := '"' :: v.data ++ ['"']

/-- The TXT value written for an NS record set by `Network.get_dns_diff`:
`",".join(f'"{value}"' for value in sorted(values))`. -/
def encodeNSValue (values : List String) : String :=
  String.mk (pyJoinChar ',' ((pySortStrings values).map nsQuote))

/-- The TXT name written for an NS record set: `f"@@ns.{name}"`. -/
def encodeNSName (name : String) : String := "@@ns." ++ name

/-- The value-set re-exposure in `Network.get_dns_records`: each stored TXT
value `r` contributes `item[1:-1] for item in r.split(",")`. -/
def decodeNSValue (stored : String) : List String :=
  (pySplitChar ',' stored.data).map (fun item => String.mk (pyStrip1 item))

/-- The name re-exposure in `Network.get_dns_records`: a TXT name starting
with `@@ns.` is stripped (`name[5:]`); other names are left to their
record type. -/
def decodeNSName (name : String) : Option String :=
  if ("@@ns.".data).isPrefixOf name.data then
    some (String.mk (name.data.drop 5))
  else none

/-! ## Volume attachment status (`handlers/volumes.py`) -/

/-- One libvirt-reported attachment of a volume
(`objects.get_vol_attachments`). -/
structure VolAttachment where
  domain : String
  volume : String
  device : String
  deriving DecidableEq, Repr

/-- The in-memory tracker `_known_attachments`:
`(volume_id, instance_id) -> (device, status)`. -/
abbrev KnownAttachments := List ((String × String) × (String × String))

/-- `get_attachment_status`: the tracker entry for `(volume, domain)`, or
`attached` when the tracker has none. -/
def get_attachment_status (known : KnownAttachments) (att : VolAttachment) :
    String :=
  match known.lookup (att.volume, att.domain) with
  | none => "attached"
  | some st => st.2

/-- The `att_set` statuses built by `_get_volume_status`: the status of
every libvirt-reported attachment, then the status of every tracker entry
for this volume not already reported by libvirt. -/
def volumeAttSet (atts : List VolAttachment) (known : KnownAttachments)
    (volName : String) : List String :=
  atts.map (get_attachment_status known) ++
    ((known.filter (fun kv =>
        decide (kv.1 ∉ atts.map (fun a => (a.volume, a.domain))) &&
        kv.1.1 == volName)).map (fun kv => kv.2.2))

/-- `_get_volume_status`: `available` iff every status in `att_set` is
`detached` (vacuously for an empty `att_set`), else `in-use`. -/
def _get_volume_status (atts : List VolAttachment) (known : KnownAttachments)
    (volName : String) : String :=
  if (volumeAttSet atts known volName).all (fun s => s == "detached") then
    "available"
  else "in-use"

inductive VolErr where
  | invalidParameter
  | incorrectState
  | internalError
  deriving DecidableEq, Repr

/-- The `Device` normalisation in `attach_volume`: a device starting with
`/` must start with `/dev/` and is stripped of that prefix. -/
def stripDevice (dev : List Char) : Option (List Char) :=
  if dev.head? = some '/' then
    if ("/dev/".data).isPrefixOf dev then some (dev.drop 5)
    else none
  else some dev

/-- Python dict assignment on the tracker (replace in place or append). -/
def trackerSet (known : KnownAttachments) (key : String × String)
    (v : String × String) : KnownAttachments :=
  if known.any (fun kv => kv.1 == key) then
    known.map (fun kv => if kv.1 == key then (key, v) else kv)
  else known ++ [(key, v)]

/-- `attach_volume` (volumes.py 161-243) up to its response: parameter
checks, device normalisation, domain and volume lookup, the `available`
check raising `IncorrectState`, then the tracker update (drop `detached`
entries of this volume, record `(device, attaching)`).  Returns the
normalised device and the updated tracker. -/
def attach_volume (instanceId volumeId device : Option String)
    (domains volumes : List String) (atts : List VolAttachment)
    (known : KnownAttachments) : Except VolErr (List Char × KnownAttachments) :=
  match instanceId with
  | none => .error .invalidParameter
  | some iid =>
    match volumeId with
    | none => .error .invalidParameter
    | some vid =>
      match device with
      | none => .error .invalidParameter
      | some dev =>
        match stripDevice dev.data with
        | none => .error .invalidParameter
        | some dev2 =>
          if ¬ domains.contains iid then .error .invalidParameter
          else if ¬ volumes.contains vid then .error .invalidParameter
          else if _get_volume_status atts known vid ≠ "available" then
            .error .incorrectState
          else
            .ok (dev2,
              trackerSet
                (known.filter (fun kv =>
                  ! (kv.1.1 == vid && kv.2.2 == "detached")))
                (vid, iid) (String.mk dev2, "attaching"))

/-! ## ListResourceRecordSets (`handlers/dns.py` 650-719) -/

/-- The decimal value of a digit string (`int(s)` on digits). -/
def decimalVal (ds : List Char) : Nat :=
  ds.foldl (fun a c => a * 10 + (c.toNat - '0'.toNat)) 0

/-- Python `int(s)`: optional sign followed by digits; `none` models
`ValueError`. -/
def pyParseInt (s : String) : Option Int :=
  match s.data with
  | [] => none
  | '-' :: ds =>
    if ds ≠ [] ∧ ds.all Char.isDigit then some (-(decimalVal ds : Int))
    else none
  | '+' :: ds =>
    if ds ≠ [] ∧ ds.all Char.isDigit then some (decimalVal ds : Int)
    else none
  | ds => if ds.all Char.isDigit then some (decimalVal ds : Int) else none

/-- Python list slicing `l[a:b]`: negative indices wrap from the end, and
both bounds are clamped to the list. -/
def pySlice (l : List α) (a b : Int) : List α :=
  let n : Int := l.length
  let norm : Int → Nat := fun i =>
    (if i < 0 then max 0 (i + n) else min i n).toNat
  (l.take (norm b)).drop (norm a)

/-- Python tuple comparison on a pair of strings (used by `records.sort`
and `bisect_left` on `(type, reversed-name)` keys). -/
def keyLt (a b : String × String) : Bool :=
  charListLt a.1.data b.1.data ||
    (a.1 == b.1 && charListLt a.2.data b.2.data)

/-- `_name_key` from `list_resource_record_sets`:
`".".join(reversed(name.split(".")))`. -/
def _name_key (name : String) : String :=
  String.mk (pyJoinChar '.' ((pySplitChar '.' name.data).reverse))

/-- One record of the zone listing:
`((type, name), values)` as in `_get_records`. -/
abbrev RecEntry := (String × String) × Finset String

/-- `_sort_key`: `(type, reversed-dotted-name)`. -/
def _sort_key (rec : RecEntry) : String × String :=
  (rec.1.1, _name_key rec.1.2)

/-- `records.sort(key=_sort_key)`: the stable ascending sort by the Python
tuple order on sort keys. -/
def sortRecords (records : List RecEntry) : List RecEntry :=
  pySort (fun r s => keyLt (_sort_key r) (_sort_key s)) records

/-- The loop of Python `bisect.bisect_left(keys, x, 0, len(keys))`:
`while lo < hi: mid = (lo+hi)//2; if keys[mid] < x: lo = mid+1 else hi = mid`. -/
def bisect_left_loop (l : List α) (lt : α → α → Bool) (x : α) :
    Nat → Nat → Nat
  | lo, hi =>
    if h : lo < hi then
      let mid := (lo + hi) / 2
      if lt (l.getD mid x) x then bisect_left_loop l lt x (mid + 1) hi
      else bisect_left_loop l lt x lo mid
    else lo
  termination_by lo hi => hi - lo
  decreasing_by
  · have h2 : lo ≤ (lo + hi) / 2 :=
      (Nat.le_div_iff_mul_le (by omega)).mpr (by omega)
    omega
  · have h2 : (lo + hi) / 2 < hi :=
      (Nat.div_lt_iff_lt_mul (by omega)).mpr (by omega)
    omega

/-- `bisect.bisect_left(keys, x)`. -/
def bisect_left (l : List α) (lt : α → α → Bool) (x : α) : Nat :=
  bisect_left_loop l lt x 0 l.length

/-- Truthiness of an optional string argument (`if name and type:`). -/
def truthy : Option String → Bool
  | none => false
  | some s => ! s.data.isEmpty

inductive ListRRErr where
  | invalidInput
  | invalidParameter
  deriving DecidableEq, Repr

/-- `list_resource_record_sets` from the in-place sort onward: sort the
extracted records by `_sort_key`, locate the offset (binary search on the
sort keys for `name`+`type`, on the reversed names for `name` alone,
`InvalidInput` for `type` alone, 0 otherwise), parse `maxitems`
(default `len(records)`), and return `records[offset : offset+limit]`. -/
def list_resource_record_sets (records : List RecEntry)
    (name type maxitems : Option String) :
    Except ListRRErr (List RecEntry) :=
  let sorted := sortRecords records
  let offsetE : Except ListRRErr Nat :=
    if truthy name && truthy type then
      .ok (bisect_left (sorted.map _sort_key) keyLt
        (type.getD "", _name_key (name.getD "")))
    else if truthy name then
      .ok (bisect_left (sorted.map (fun r => (_sort_key r).2))
        (fun a b => charListLt a.data b.data) (_name_key (name.getD "")))
    else if truthy type then .error .invalidInput
    else .ok 0
  match offsetE with
  | .error e => .error e
  | .ok offset =>
    match maxitems with
    | none => .ok (pySlice sorted offset (offset + records.length))
    | some s =>
      match pyParseInt s with
      | some k => .ok (pySlice sorted offset (Int.ofNat offset + k))
      | none => .error .invalidInput

/-! ## Argument decoder (`handlers/_routing.py` `SparseList`, `parse_args`)

Python values reachable in the argument tree are embedded as `PVal`:
strings, dicts (association lists whose keys may be strings or ints — a
numeric segment used against a dict becomes an int key), and `SparseList`
values whose elements may be Python `None`.
-/

inductive PKey where
  | s (k : String)
  | i (n : Int)
  deriving DecidableEq, Repr

inductive PVal where
  | str (v : String)
  | dict (entries : List (PKey × PVal))
  | slist (elems : List (Option PVal))
  deriving Repr

/-- The outcome of Python `ptr[subkey]`: a value (`found none` is Python
`None`), a caught `KeyError`/`IndexError` (`miss`), or an uncaught
`TypeError` (`err`). -/
inductive LookupRes where
  | found (v : Option PVal)
  | miss
  | err
  deriving Repr

/-- Python list indexing: negative indices wrap once from the end; out of
range raises `IndexError`. -/
def pyIndex (elems : List (Option PVal)) (n : Int) : LookupRes :=
  let len : Int := elems.length
  let idx := if n < 0 then n + len else n
  if 0 ≤ idx ∧ idx < len then .found (elems.getD idx.toNat none)
  else .miss

/-- Python string indexing (`"ab"[0]`): yields a one-character string. -/
def pyStrIndex (v : String) (n : Int) : LookupRes :=
  let len : Int := v.data.length
  let idx := if n < 0 then n + len else n
  if 0 ≤ idx ∧ idx < len then
    .found (some (.str (String.mk [v.data.getD idx.toNat ' '])))
  else .miss

/-- Python dict lookup on the association list. -/
def dictGet : List (PKey × PVal) → PKey → LookupRes
  | [], _ => .miss
  | (k, v) :: rest, key => if k = key then .found (some v) else dictGet rest key

/-- Python `ptr[subkey]` for the decoder's pointer values. -/
def pyGet (cur : PVal) (key : PKey) : LookupRes :=
  match cur with
  | .str v =>
    match key with
    | .s _ => .err
    | .i n => pyStrIndex v n
  | .dict entries => dictGet entries key
  | .slist elems =>
    match key with
    | .s _ => .err
    | .i n => pyIndex elems n

/-- Python dict assignment: replace in place, else append. -/
def dictSet : List (PKey × PVal) → PKey → PVal → List (PKey × PVal)
  | [], key, v => [(key, v)]
  | (k, w) :: rest, key, v =>
    if k = key then (k, v) :: rest else (k, w) :: dictSet rest key v

/-- `SparseList.__setitem__`: extend with `None` while `index - len + 1 > 0`,
then plain list assignment (negative indices wrap; out of range raises,
modelled by `none`). -/
def slistSet (elems : List (Option PVal)) (n : Int) (v : PVal) :
    Option (List (Option PVal)) :=
  let len : Int := elems.length
  let elems2 :=
    if n - len + 1 > 0 then elems ++ List.replicate (n - len + 1).toNat none
    else elems
  let len2 : Int := elems2.length
  let idx := if n < 0 then n + len2 else n
  if 0 ≤ idx ∧ idx < len2 then some (elems2.set idx.toNat (some v))
  else none

/-- Python `ptr[subkey] = value`; `none` is an uncaught `TypeError` or
`IndexError`. -/
def pySet (cur : PVal) (key : PKey) (v : PVal) : Option PVal :=
  match cur with
  | .str _ => none
  | .dict entries => some (.dict (dictSet entries key v))
  | .slist elems =>
    match key with
    | .s _ => none
    | .i n =>
      match slistSet elems n v with
      | some elems2 => some (.slist elems2)
      | none => none

/-- `str.isnumeric` as the decoder uses it (segment names are ASCII). -/
def isNumericSeg (cs : List Char) : Bool :=
  ! cs.isEmpty && cs.all Char.isDigit

/-- `int(path[i]) - 1` for numeric segments, the raw segment otherwise. -/
def segKey (cs : List Char) : PKey :=
  if isNumericSeg cs then .i ((decimalVal cs : Int) - 1) else .s (String.mk cs)

/-- The pointer walk of `parse_args` for one multi-segment key: look up
each segment in turn; on success descend (dropping the value when the
final segment already resolves); on a caught miss assign the value at the
final segment or create the intermediate container dictated by the next
segment (`SparseList()` for a numeric segment, `{}` otherwise) and
continue inside it.  `none` models an uncaught exception. -/
def walk (cur : PVal) (path : List (List Char)) (v : String) : Option PVal :=
  match path with
  | [] => some cur
  | seg :: rest =>
    match pyGet cur (segKey seg) with
    | .err => none
    | .found c =>
      match rest with
      | [] => some cur
      | _ :: _ =>
        match c with
        | none => none
        | some child =>
          match walk child rest v with
          | some child2 => pySet cur (segKey seg) child2
          | none => none
    | .miss =>
      match rest with
      | [] => pySet cur (segKey seg) (.str v)
      | r1 :: _ =>
        match walk (if isNumericSeg r1 then .slist [] else .dict []) rest v with
        | some child2 => pySet cur (segKey seg) child2
        | none => none

/-- A raw form value of the multidict: a string, or some other field type
(bytes, file upload). -/
inductive AVal where
  | str (s : String)
  | other
  deriving DecidableEq, Repr

inductive ParseErr where
  | invalidParameter
  | pyError
  deriving DecidableEq, Repr

/-- One iteration of the `for k, v in data.items()` loop of `parse_args`:
non-strings raise the invalid-parameter error; single-segment keys are
plain dict assignments; multi-segment keys run the pointer walk. -/
def parse_args_step (args : PVal) (kv : String × AVal) :
    Except ParseErr PVal :=
  match kv.2 with
  | .other => .error .invalidParameter
  | .str v =>
    let path := pySplitChar '.' kv.1.data
    if path.length = 1 then
      match pySet args (.s kv.1) (.str v) with
      | some args2 => .ok args2
      | none => .error .pyError
    else
      match walk args path v with
      | some args2 => .ok args2
      | none => .error .pyError

/-- `parse_args` (_routing.py 259-296) over the ordered items of the
multidict, starting from the empty `args` dict. -/
def parse_args (items : List (String × AVal)) : Except ParseErr PVal :=
  items.foldlM parse_args_step (PVal.dict [])

/-! The client-side argument tree and its dotted-key encoding (the encoder
is not part of this repository; it is modelled from the spec). -/

/-- An argument tree: nested string-keyed mappings, 1-based possibly
sparse lists (`none` is an absent index), and string leaves. -/
inductive QTree where
  | leaf (s : String)
  | map (entries : List (String × QTree))
  | list (elems : List (Option QTree))
  deriving Repr

/-- The decimal digit characters. -/
def digitChar (d : Nat) : Char :=
  if d = 0 then '0' else if d = 1 then '1' else if d = 2 then '2'
  else if d = 3 then '3' else if d = 4 then '4' else if d = 5 then '5'
  else if d = 6 then '6' else if d = 7 then '7' else if d = 8 then '8'
  else '9'

/-- Decimal rendering, with enough fuel for the division chain. -/
def natToDecAux : Nat → Nat → List Char
  | 0, n => [digitChar n]
  | fuel + 1, n =>
    if n < 10 then [digitChar n]
    else natToDecAux fuel (n / 10) ++ [digitChar (n % 10)]

/-- Decimal rendering of a positive index for the query encoding. -/
def natToDec (n : Nat) : List Char := natToDecAux n n

mutual
/-- Modelled from the spec: the dotted-key query encoding of a subtree
under a prefix path, emitting `(path, value)` pairs in depth-first
order.  Paths are segment lists; mapping keys contribute their characters,
list elements their 1-based decimal index. -/
def encodePaths (p : List (List Char)) : QTree → List (List (List Char) × String)
  | .leaf s => [(p, s)]
  | .map es => encodeEntries p es
  | .list es => encodeElems p 1 es

def encodeEntries (p : List (List Char)) :
    List (String × QTree) → List (List (List Char) × String)
  | [] => []
  | (k, t) :: rest => encodePaths (p ++ [k.data]) t ++ encodeEntries p rest

def encodeElems (p : List (List Char)) (i : Nat) :
    List (Option QTree) → List (List (List Char) × String)
  | [] => []
  | none :: rest => encodeElems p (i + 1) rest
  | some t :: rest =>
    encodePaths (p ++ [natToDec i]) t ++ encodeElems p (i + 1) rest
end

mutual
/-- The `PVal` that `parse_args` should reconstruct for a tree. -/
def toPVal : QTree → PVal
  | .leaf s => .str s
  | .map es => .dict (toPValEntries es)
  | .list es => .slist (toPValElems es)

def toPValEntries : List (String × QTree) → List (PKey × PVal)
  | [] => []
  | (k, t) :: rest => (.s k, toPVal t) :: toPValEntries rest

def toPValElems : List (Option QTree) → List (Option PVal)
  | [] => []
  | none :: rest => none :: toPValElems rest
  | some t :: rest => some (toPVal t) :: toPValElems rest
end

/-- A valid mapping key segment: nonempty, dot-free and not numeric (a
numeric or dotted key would not decode back to a mapping entry). -/
def validKey (k : String) : Bool :=
  ! k.data.isEmpty && ! k.data.contains '.' && ! isNumericSeg k.data

/-- The last element of a sparse list is present (trailing `none` padding
is not representable in the encoding). -/
def isLastSome : List (Option QTree) → Bool
  | [] => false
  | [some _] => true
  | [none] => false
  | _ :: rest => isLastSome rest

mutual
/-- Well-formed argument trees: exactly the class the claim quantifies
over (string-keyed mappings with valid distinct keys, sparse lists whose
last element is present, string leaves). -/
def wfTree : QTree → Bool
  | .leaf _ => true
  | .map es =>
    ! es.isEmpty && decide ((es.map Prod.fst).Nodup) && wfEntries es
  | .list es => ! es.isEmpty && isLastSome es && wfElems es

def wfEntries : List (String × QTree) → Bool
  | [] => true
  | (k, t) :: rest => validKey k && wfTree t && wfEntries rest

def wfElems : List (Option QTree) → Bool
  | [] => true
  | none :: rest => wfElems rest
  | some t :: rest => wfTree t && wfElems rest
end

/-- A well-formed top-level argument tree (the `args` mapping itself). -/
def wfTop (es : List (String × QTree)) : Bool :=
  decide ((es.map Prod.fst).Nodup) && wfEntries es

/-- Join a path back into the wire-format dotted key. -/
def joinPath (p : List (List Char)) : String :=
  String.mk (pyJoinChar '.' p)

/-- Modelled from the spec: the full query encoding of an argument tree. -/
def encodeTop (es : List (String × QTree)) : List (String × AVal) :=
  (encodeEntries [] es).map (fun pv => (joinPath pv.1, AVal.str pv.2))

/-- Sequentially walk a list of path-level items (proof-side companion of
the `parse_args` fold for multi-segment keys). -/
def processW : List (List (List Char) × String) → PVal → Option PVal
  | [], cur => some cur
  | (p, v) :: rest, cur =>
    match walk cur p v with
    | some cur2 => processW rest cur2
    | none => none

/-- The container/key shapes against which the decoder's create-or-assign
branch is well-behaved: any key on a dict, a nonnegative index on a
sparse list. -/
def goodKey (cur : PVal) (k : PKey) : Prop :=
  match cur, k with
  | .dict _, _ => True
  | .slist _, .i n => 0 ≤ n
  | _, _ => False

/-- A sample argument tree exercising flat, nested and sparse-indexed
entries (the sparse list leaves 1-based indices 1 and 2 absent). -/
def c2Demo : List (String × QTree) :=
  [("a", .leaf "x"),
   ("b", .map [("c", .leaf "y"), ("d", .leaf "z")]),
   ("e", .list [none, none, some (.leaf "w")])]

/-! # Theorems -/

/-- C3.  The claim says the `ec2_instance` table created at startup admits
precisely the four states `running`, `stopping`, `stopped`, `terminated`.
The schema in `main.py` contradicts the instance handlers: its CHECK
constraint admits only `running` and `terminated`, yet `stop_instances`
writes `stopping` (and `describe_instances` writes `stopped` when the
domain stops), so the very writes the claim describes are rejected by the
table the code creates. -/
theorem C3_instance_state_schema :
    ec2InstanceStateCheck runInstancesInsertState = true ∧
    ec2InstanceStateCheck terminateInstancesTargetState = true ∧
    ec2InstanceStateCheck stopInstancesTargetState = false ∧
    ec2InstanceStateCheck "stopped" = false ∧
    stopInstancesTargetState = "stopping" ∧
    domstate 5 = some "stopped" := by
  decide

/-- C4.  `association_id IS NULL ↔ instance_id IS NULL` holds for every row
and is preserved by the single-statement writes of AllocateAddress,
AssociateAddress and DisassociateAddress. -/
theorem C4_ip_association_invariant (t : IpTable) (h : ipTableInv t)
    (newAllocId ip assocId instId allocId : String) :
    ipTableInv (allocate_address_insert t newAllocId ip) ∧
    ipTableInv (associate_address_update t assocId instId allocId) ∧
    ipTableInv (disassociate_address_update t assocId) := by
  refine ⟨?_, ?_, ?_⟩
  · intro r hr
    rcases List.mem_append.mp hr with hr | hr
    · exact h r hr
    · rcases List.mem_singleton.mp hr with rfl
      exact Iff.rfl
  · intro r hr
    rcases List.mem_map.mp hr with ⟨r₀, hr₀, rfl⟩
    by_cases hc : r₀.allocationId = allocId
    · simp only [hc, if_pos rfl, ipRowInv]
      simp
    · simpa [hc] using h r₀ hr₀
  · intro r hr
    rcases List.mem_map.mp hr with ⟨r₀, hr₀, rfl⟩
    by_cases hc : r₀.associationId = some assocId
    · simp only [hc, if_pos rfl, ipRowInv]
      simp
    · simpa [hc] using h r₀ hr₀

/-- Witness for `C4_ip_association_invariant` at a concrete table. -/
theorem C4_ip_association_invariant_witness :
    ipTableInv [⟨"eipalloc-1", "10.0.0.16", none, none⟩] ∧
    (ipTableInv (allocate_address_insert [⟨"eipalloc-1", "10.0.0.16", none, none⟩] "eipalloc-2" "10.0.0.17") ∧
     ipTableInv (associate_address_update [⟨"eipalloc-1", "10.0.0.16", none, none⟩] "eipassoc-1" "i-1" "eipalloc-1") ∧
     ipTableInv (disassociate_address_update [⟨"eipalloc-1", "10.0.0.16", none, none⟩] "eipassoc-1")) :=
  ⟨by decide,
   C4_ip_association_invariant [⟨"eipalloc-1", "10.0.0.16", none, none⟩]
     (by decide) "eipalloc-2" "10.0.0.17" "eipassoc-1" "i-1" "eipalloc-1"⟩

/-- Helper: `List.find?` over `range'` returns the least satisfying element. -/
theorem find?_range'_spec (p : Nat → Bool) :
    ∀ len start a, (List.range' start len).find? p = some a →
      p a = true ∧ start ≤ a ∧ a < start + len ∧
        ∀ b, start ≤ b → b < a → p b = false := by
  intro len
  induction len with
  | zero => intro start a h; simp [List.range'] at h
  | succ n ih =>
    intro start a h
    rw [List.range'_succ] at h
    by_cases hp : p start
    · rw [List.find?_cons_of_pos _ hp] at h
      cases h
      exact ⟨hp, le_refl _, by omega, fun b hb hb2 => absurd hb2 (by omega)⟩
    · rw [List.find?_cons_of_neg _ hp] at h
      obtain ⟨h1, h2, h3, h4⟩ := ih (start + 1) a h
      refine ⟨h1, by omega, by omega, fun b hb hb2 => ?_⟩
      rcases Nat.eq_or_lt_of_le hb with rfl | hb'
      · simpa using hp
      · exact h4 b hb' hb2

/-- C7.  AllocateAddress picks addresses first-fit over
`[rangeStart, max (rangeStart+16) rangeEnd)`: it returns the numerically
smallest address not in `ip_addresses`; it fails exactly when the whole
range is taken; two consecutive allocations return distinct addresses; and
releasing the address just allocated and allocating again returns it back. -/
theorem C7_allocate_address_first_fit (existing : Finset Nat)
    (rangeStart rangeEnd a : Nat)
    (h : allocate_address_pick existing rangeStart rangeEnd = some a) :
    (a ∉ existing ∧ rangeStart ≤ a ∧ a < allocScanStop rangeStart rangeEnd ∧
      ∀ b, rangeStart ≤ b → b < a → b ∈ existing) ∧
    (∀ b, allocate_address_pick (insert a existing) rangeStart rangeEnd = some b →
      b ≠ a) ∧
    allocate_address_pick ((insert a existing).erase a) rangeStart rangeEnd =
      some a := by
  obtain ⟨h1, h2, h3, h4⟩ := find?_range'_spec _ _ _ _ h
  have hnot : a ∉ existing := by simpa using h1
  have hstop : rangeStart + (allocScanStop rangeStart rangeEnd - rangeStart) =
      allocScanStop rangeStart rangeEnd := by
    unfold allocScanStop at *
    omega
  refine ⟨⟨hnot, h2, by omega, fun b hb hb2 => by simpa using h4 b hb hb2⟩, ?_, ?_⟩
  · intro b hb
    obtain ⟨hb1, _, _, _⟩ := find?_range'_spec _ _ _ _ hb
    intro heq
    subst heq
    simp at hb1
  · rw [Finset.erase_insert hnot]
    exact h

/-- Witness for `C7_allocate_address_first_fit`: a concrete network with
static range `[160, 176)` and addresses 160 and 161 already allocated. -/
theorem C7_allocate_address_first_fit_witness :
    allocate_address_pick {160, 161} 160 176 = some 162 ∧
    (162 ∉ ({160, 161} : Finset Nat) ∧ 160 ≤ 162 ∧ 162 < allocScanStop 160 176 ∧
      ∀ b, 160 ≤ b → b < 162 → b ∈ ({160, 161} : Finset Nat)) ∧
    (∀ b, allocate_address_pick (insert 162 ({160, 161} : Finset Nat)) 160 176 = some b →
      b ≠ 162) ∧
    allocate_address_pick ((insert 162 ({160, 161} : Finset Nat)).erase 162) 160 176 =
      some 162 :=
  ⟨by decide, C7_allocate_address_first_fit {160, 161} 160 176 162 (by decide)⟩

/-- The exhaustion side of C7: `AddressLimitExceeded` (the `else` clause of
the scan loop) is raised exactly when every address of the range is
present in `ip_addresses`. -/
theorem C7_allocate_address_exhaustion (existing : Finset Nat)
    (rangeStart rangeEnd : Nat) :
    allocate_address_pick existing rangeStart rangeEnd = none ↔
      ∀ b, rangeStart ≤ b → b < allocScanStop rangeStart rangeEnd →
        b ∈ existing := by
  unfold allocate_address_pick
  rw [List.find?_eq_none]
  constructor
  · intro h b hb1 hb2
    have hmem : b ∈ List.range' rangeStart
        (allocScanStop rangeStart rangeEnd - rangeStart) := by
      rw [List.mem_range'_1]
      unfold allocScanStop at *
      omega
    have := h b hmem
    simpa using this
  · intro h b hmem
    rw [List.mem_range'_1] at hmem
    have : b ∈ existing := h b hmem.1 (by unfold allocScanStop at *; omega)
    simp [this]

/-- Helper: the loop returns the first poll at which the domain is stopped. -/
theorem stop_instances_loop_spec (stoppedAt : Nat → Bool) :
    ∀ fuel k n, stop_instances_loop stoppedAt fuel k = some n →
      stoppedAt n = true ∧ k ≤ n ∧ ∀ i, k ≤ i → i < n → stoppedAt i = false := by
  intro fuel
  induction fuel with
  | zero => intro k n h; simp [stop_instances_loop] at h
  | succ m ih =>
    intro k n h
    unfold stop_instances_loop at h
    by_cases hs : stoppedAt k
    · rw [if_pos hs] at h
      cases h
      exact ⟨hs, le_refl _, fun i h1 h2 => absurd h2 (by omega)⟩
    · rw [if_neg hs] at h
      obtain ⟨h1, h2, h3⟩ := ih (k + 1) n h
      refine ⟨h1, by omega, fun i hi1 hi2 => ?_⟩
      rcases Nat.eq_or_lt_of_le hi1 with rfl | hi'
      · simpa using hs
      · exact h3 i hi' hi2

/-- C8 counterexample.  The claim says `stop_instances` sets the shadow
state to `stopped` after the polling loop completes; on a domain that is
already stopped the handler completes at once and the shadow state it
leaves behind is `stopping`, not `stopped` (`stop_instances` contains no
write of `stopped`). -/
theorem C8_stop_instances_counterexample :
    stop_instances_one "running" none (fun _ => 5) 1 =
      some { dbState := "stopping", shutdownCalls := 0 } ∧
    ("stopping" : String) ≠ "stopped" := by
  constructor
  · rfl
  · decide

/-- C8 amended.  For every instance id accepted by StopInstances the handler
sets the shadow state to `stopping` (when the row is not terminated), then
repeatedly issues shutdown until the first poll at which the domain reports
`stopped` — but after the loop completes it leaves the shadow state at
`stopping`; it never writes `stopped`. -/
theorem C8_stop_instances_amended (rowState : String) (domStateAt : Nat → Nat)
    (fuel : Nat) (res : StopResult)
    (h : stop_instances_one rowState none domStateAt fuel = some res) :
    res.dbState = stopInstancesTargetState ∧
    res.dbState ≠ "stopped" ∧
    domstate (domStateAt res.shutdownCalls) = some "stopped" ∧
    ∀ i, i < res.shutdownCalls → domstate (domStateAt i) ≠ some "stopped" := by
  unfold stop_instances_one at h
  cases hl : stop_instances_loop (fun n => domstate (domStateAt n) = some "stopped") fuel 0 with
  | none => rw [hl] at h; exact absurd h (by simp)
  | some n =>
    rw [hl] at h
    cases h
    obtain ⟨h1, _, h3⟩ := stop_instances_loop_spec _ fuel 0 n hl
    refine ⟨by simp, by simp [stopInstancesTargetState], by simpa using h1, fun i hi => ?_⟩
    have := h3 i (Nat.zero_le i) hi
    simpa using this

/-- Witness for `C8_stop_instances_amended`: a domain that reports running
(code 1) at the first poll and stopped (code 5) afterwards. -/
theorem C8_stop_instances_amended_witness :
    stop_instances_one "running" none (fun n => if n = 0 then 1 else 5) 3 =
      some { dbState := "stopping", shutdownCalls := 1 } ∧
    ("stopping" : String) = stopInstancesTargetState ∧
    domstate 5 = some "stopped" :=
  ⟨by decide,
   (C8_stop_instances_amended "running" (fun n => if n = 0 then 1 else 5) 3
      { dbState := "stopping", shutdownCalls := 1 } (by decide)).1 ▸ ⟨rfl, by decide⟩⟩

/-- C10.  For a non-terminated instance whose live libvirt state differs
from the stored shadow state, `describe_instances` reports the stale shadow
value while refreshing the shadow row to the live state, so the live state
only becomes visible on the next call. -/
theorem C10_describe_reports_stale_state (rowState live : String)
    (virstate : Nat) (hterm : rowState ≠ "terminated")
    (hlive : domstate virstate = some live) (hne : live ≠ rowState) :
    describe_instance_state rowState virstate =
      some { reportedState := rowState, newDbState := live } ∧
    (describe_instance_state rowState virstate).map (·.reportedState) ≠
      some live ∧
    (live ≠ "terminated" →
      describe_instance_state live virstate =
        some { reportedState := live, newDbState := live }) := by
  refine ⟨?_, ?_, ?_⟩
  · unfold describe_instance_state
    rw [if_neg hterm, hlive]
    simp [hne]
  · unfold describe_instance_state
    rw [if_neg hterm, hlive]
    simp only [hne, Option.map_some]
    simpa using fun heq => hne heq.symm
  · intro hlt
    unfold describe_instance_state
    rw [if_neg hlt, hlive]
    simp

/-- Witness for `C10_describe_reports_stale_state`: shadow row `running`,
libvirt code 5 (live state `stopped`). -/
theorem C10_describe_reports_stale_state_witness :
    describe_instance_state "running" 5 =
      some { reportedState := "running", newDbState := "stopped" } ∧
    describe_instance_state "stopped" 5 =
      some { reportedState := "stopped", newDbState := "stopped" } :=
  ⟨(C10_describe_reports_stale_state "running" "stopped" 5 (by decide)
      (by decide) (by decide)).1,
   (C10_describe_reports_stale_state "running" "stopped" 5 (by decide)
      (by decide) (by decide)).2.2 (by decide)⟩

/-- Frame lemma: a change never touches other keys. -/
theorem applyChange_frame (t : RRTable) (c : RRChange) (t2 : RRTable)
    (h : applyChange t c = .ok t2) (k : String × String) (hk : k ≠ rrKey c) :
    t2 k = t k := by
  unfold rrKey at hk
  unfold applyChange at h
  by_cases h1 : c.action = "CREATE"
  · rw [if_pos h1] at h
    cases hc : t (c.rtype, c.name) with
    | some v => rw [hc] at h; exact absurd h (by simp)
    | none =>
      rw [hc] at h
      cases h
      unfold rrSet
      rw [if_neg hk]
  · rw [if_neg h1] at h
    by_cases h2 : c.action = "DELETE"
    · rw [if_pos h2] at h
      by_cases h3 : t (c.rtype, c.name) = some c.values
      · rw [if_pos h3] at h
        cases h
        unfold rrSet
        rw [if_neg hk]
      · rw [if_neg h3] at h; exact absurd h (by simp)
    · rw [if_neg h2] at h
      by_cases h4 : c.action = "UPSERT"
      · rw [if_pos h4] at h
        cases h
        unfold rrSet
        rw [if_neg hk]
      · rw [if_neg h4] at h; exact absurd h (by simp)

theorem applyChanges_frame (cs : List RRChange) :
    ∀ (t t2 : RRTable), applyChanges t cs = .ok t2 →
      ∀ k, (∀ c ∈ cs, k ≠ rrKey c) → t2 k = t k := by
  induction cs with
  | nil =>
    intro t t2 h k _
    cases h
    rfl
  | cons c rest ih =>
    intro t t2 h k hk
    unfold applyChanges at h
    cases hstep : applyChange t c with
    | error e => rw [hstep] at h; exact absurd h (by simp)
    | ok t1 =>
      rw [hstep] at h
      have h2 := ih t1 t2 h k (fun d hd => hk d (List.mem_cons_of_mem _ hd))
      rw [h2]
      exact applyChange_frame t c t1 hstep k (hk c (List.mem_cons_self _ _))

/-- The effect of a successful change on its own key. -/
theorem applyChange_own_key (t : RRTable) (c : RRChange) (t2 : RRTable)
    (h : applyChange t c = .ok t2) :
    t2 (rrKey c) = if c.action = "DELETE" then none else some c.values := by
  unfold applyChange at h
  by_cases h1 : c.action = "CREATE"
  · rw [if_pos h1] at h
    cases hc : t (c.rtype, c.name) with
    | some v => rw [hc] at h; exact absurd h (by simp)
    | none =>
      rw [hc] at h
      cases h
      unfold rrSet rrKey
      rw [if_pos rfl, if_neg (by rw [h1]; decide)]
  · rw [if_neg h1] at h
    by_cases h2 : c.action = "DELETE"
    · rw [if_pos h2] at h
      by_cases h3 : t (c.rtype, c.name) = some c.values
      · rw [if_pos h3] at h
        cases h
        unfold rrSet rrKey
        rw [if_pos rfl, if_pos h2]
      · rw [if_neg h3] at h; exact absurd h (by simp)
    · rw [if_neg h2] at h
      by_cases h4 : c.action = "UPSERT"
      · rw [if_pos h4] at h
        cases h
        unfold rrSet rrKey
        rw [if_pos rfl, if_neg h2]
      · rw [if_neg h4] at h; exact absurd h (by simp)

/-- The postcondition of the change loop for batches touching pairwise
distinct keys. -/
theorem applyChanges_post (cs : List RRChange) :
    ∀ (t t2 : RRTable), applyChanges t cs = .ok t2 →
      cs.Pairwise (fun a b => rrKey a ≠ rrKey b) →
      ∀ d ∈ cs,
        t2 (rrKey d) = if d.action = "DELETE" then none else some d.values := by
  induction cs with
  | nil => intro t t2 _ _ d hd; cases hd
  | cons c rest ih =>
    intro t t2 hok hdistinct d hd
    unfold applyChanges at hok
    cases hstep : applyChange t c with
    | error e => rw [hstep] at hok; exact absurd hok (by simp)
    | ok t1 =>
      rw [hstep] at hok
      rcases List.mem_cons.mp hd with rfl | hd'
      · have hframe : t2 (rrKey d) = t1 (rrKey d) := by
          refine applyChanges_frame rest t1 t2 hok (rrKey d) ?_
          intro e he
          exact (List.pairwise_cons.mp hdistinct).1 e he
        rw [hframe]
        exact applyChange_own_key t d t1 hstep
      · exact ih t1 t2 hok (List.pairwise_cons.mp hdistinct).2 d hd'

/-- C1 counterexample.  The claim concludes that after a successful call
*every* CREATEd key is present; the batch `[CREATE k v, DELETE k v]`
succeeds yet leaves its CREATEd key absent. -/
theorem C1_change_batch_counterexample :
    (applyChanges (fun _ => none) c1CexBatch).map
      (fun t => t ("A", "x.example.")) = .ok none ∧
    (applyChanges (fun _ => none) c1CexBatch).map (fun _ => ()) = .ok () ∧
    c1CexBatch.head?.map (fun c => (c.action, rrKey c)) =
      some ("CREATE", ("A", "x.example.")) := by
  refine ⟨rfl, rfl, rfl⟩

/-- C1 amended.  The per-change semantics are exactly as claimed (CREATE on
a present key and an unmatched DELETE raise `InvalidChangeBatch`, UPSERT
overwrites, any other action string raises `InvalidInput`), and the claimed
postcondition holds for every batch whose changes touch pairwise-distinct
keys: after a successful call, each CREATEd or UPSERTed key holds exactly
the supplied values and each DELETEd key is absent. -/
theorem C1_change_batch_semantics (t : RRTable) (c : RRChange)
    (cs : List RRChange) (t2 : RRTable)
    (hok : applyChanges t cs = .ok t2)
    (hdistinct : cs.Pairwise (fun a b => rrKey a ≠ rrKey b)) :
    ((c.action = "CREATE" → (∀ v, t (rrKey c) = some v →
        applyChange t c = .error .invalidChangeBatch) ∧
      (t (rrKey c) = none →
        applyChange t c = .ok (rrSet t (rrKey c) (some c.values)))) ∧
     (c.action = "DELETE" →
       (t (rrKey c) = some c.values →
         applyChange t c = .ok (rrSet t (rrKey c) none)) ∧
       (t (rrKey c) ≠ some c.values →
         applyChange t c = .error .invalidChangeBatch)) ∧
     (c.action = "UPSERT" →
       applyChange t c = .ok (rrSet t (rrKey c) (some c.values))) ∧
     (c.action ≠ "CREATE" → c.action ≠ "DELETE" → c.action ≠ "UPSERT" →
       applyChange t c = .error .invalidInput)) ∧
    (∀ d ∈ cs,
      (d.action = "CREATE" → t2 (rrKey d) = some d.values) ∧
      (d.action = "UPSERT" → t2 (rrKey d) = some d.values) ∧
      (d.action = "DELETE" → t2 (rrKey d) = none)) := by
  constructor
  · unfold rrKey
    refine ⟨?_, ?_, ?_, ?_⟩
    · intro ha
      constructor
      · intro v hv
        unfold applyChange
        rw [if_pos ha, hv]
      · intro hv
        unfold applyChange
        rw [if_pos ha, hv]
    · intro ha
      have hnc : ¬ c.action = "CREATE" := by rw [ha]; decide
      constructor
      · intro hv
        unfold applyChange
        rw [if_neg hnc, if_pos ha, if_pos hv]
      · intro hv
        unfold applyChange
        rw [if_neg hnc, if_pos ha, if_neg hv]
    · intro ha
      have hnc : ¬ c.action = "CREATE" := by rw [ha]; decide
      have hnd : ¬ c.action = "DELETE" := by rw [ha]; decide
      unfold applyChange
      rw [if_neg hnc, if_neg hnd, if_pos ha]
    · intro h1 h2 h3
      unfold applyChange
      rw [if_neg h1, if_neg h2, if_neg h3]
  · intro d hd
    have hpost := applyChanges_post cs t t2 hok hdistinct d hd
    rw [hpost]
    refine ⟨?_, ?_, ?_⟩
    · intro ha; rw [if_neg (by rw [ha]; decide)]
    · intro ha; rw [if_neg (by rw [ha]; decide)]
    · intro ha; rw [if_pos ha]

/-- Witness for `C1_change_batch_semantics`: the batch
`[CREATE A www.example. {1.2.3.4}, UPSERT TXT t.example. {abc},
DELETE A old.example. {5.6.7.8}]` applied to a table holding only
`(A, old.example.)`. -/
theorem C1_change_batch_semantics_witness :
    c1Final ("A", "www.example.") = some {"1.2.3.4"} ∧
    c1Final ("TXT", "t.example.") = some {"abc"} ∧
    c1Final ("A", "old.example.") = none ∧
    applyChanges c1T0 c1Batch = .ok c1Final := by
  have h : applyChanges c1T0 c1Batch = .ok c1Final := rfl
  have hmain := C1_change_batch_semantics c1T0
    ⟨"UPSERT", "TXT", "t.example.", {"abc"}⟩ c1Batch c1Final h (by decide)
  obtain ⟨-, hpost⟩ := hmain
  have h1 := (hpost ⟨"CREATE", "A", "www.example.", {"1.2.3.4"}⟩
    (by decide)).1 rfl
  have h2 := (hpost ⟨"UPSERT", "TXT", "t.example.", {"abc"}⟩
    (by decide)).2.1 rfl
  have h3 := (hpost ⟨"DELETE", "A", "old.example.", {"5.6.7.8"}⟩
    (by decide)).2.2 rfl
  exact ⟨h1, h2, h3, h⟩

/-- Splitting a separator-free piece returns the one piece. -/
theorem pySplitChar_of_not_mem (sep : Char) (s : List Char) (h : sep ∉ s) :
    pySplitChar sep s = [s] := by
  induction s with
  | nil => rfl
  | cons c cs ih =>
    have hc : ¬ c = sep := fun he => h (he ▸ List.mem_cons_self c cs)
    have hcs : sep ∉ cs := fun hm => h (List.mem_cons_of_mem c hm)
    unfold pySplitChar
    rw [if_neg hc, ih hcs]

/-- Splitting past one separator-free piece. -/
theorem pySplitChar_append (sep : Char) (s t : List Char) (h : sep ∉ s) :
    pySplitChar sep (s ++ sep :: t) = s :: pySplitChar sep t := by
  induction s with
  | nil =>
    simp only [List.nil_append]
    simp only [pySplitChar]
    simp
  | cons c cs ih =>
    have hc : ¬ c = sep := fun he => h (he ▸ List.mem_cons_self c cs)
    have hcs : sep ∉ cs := fun hm => h (List.mem_cons_of_mem c hm)
    simp only [List.cons_append]
    simp only [pySplitChar]
    rw [if_neg hc, ih hcs]

/-- `split` undoes `join` on separator-free pieces. -/
theorem pySplitChar_pyJoinChar (sep : Char) :
    ∀ items : List (List Char), items ≠ [] → (∀ s ∈ items, sep ∉ s) →
      pySplitChar sep (pyJoinChar sep items) = items := by
  intro items
  induction items with
  | nil => intro h _; exact absurd rfl h
  | cons s ss ih =>
    intro _ hfree
    cases ss with
    | nil =>
      show pySplitChar sep (pyJoinChar sep [s]) = [s]
      unfold pyJoinChar
      exact pySplitChar_of_not_mem sep s (hfree s (List.mem_cons_self _ _))
    | cons s2 ss2 =>
      show pySplitChar sep (s ++ sep :: pyJoinChar sep (s2 :: ss2)) = _
      rw [pySplitChar_append sep s _ (hfree s (List.mem_cons_self _ _))]
      rw [ih (by simp) (fun u hu => hfree u (List.mem_cons_of_mem _ hu))]

theorem insertSorted_perm (lt : α → α → Bool) (x : α) :
    ∀ l : List α, (insertSorted lt x l).Perm (x :: l) := by
  intro l
  induction l with
  | nil => exact List.Perm.refl _
  | cons y ys ih =>
    unfold insertSorted
    by_cases hc : lt y x
    · rw [if_pos hc]
      exact (ih.cons y).trans (List.Perm.swap x y ys)
    · rw [if_neg hc]

theorem pySort_perm (lt : α → α → Bool) :
    ∀ l : List α, (pySort lt l).Perm l := by
  intro l
  induction l with
  | nil => exact List.Perm.refl _
  | cons x xs ih =>
    unfold pySort
    exact (insertSorted_perm lt x (pySort lt xs)).trans (ih.cons x)

/-- A list is a prefix of itself extended. -/
theorem isPrefixOf_append_self (l t : List Char) :
    l.isPrefixOf (l ++ t) = true := by
  induction l with
  | nil => cases t <;> rfl
  | cons a as ih => simp [List.isPrefixOf, ih]

/-- C5.  The NS side-channel encoding round-trips on every target set the
write path can faithfully carry: for a nonempty target set none of whose
targets contains a comma, reading the `@@ns.`-prefixed TXT record written
by the diff engine re-exposes the stripped name and exactly the original
targets (as the sorted list, hence the same value set). -/
theorem C5_ns_roundtrip (name : String) (values : List String)
    (hne : values ≠ []) (hcomma : ∀ v ∈ values, ',' ∉ v.data) :
    decodeNSName (encodeNSName name) = some name ∧
    decodeNSValue (encodeNSValue values) = pySortStrings values ∧
    (decodeNSValue (encodeNSValue values)).toFinset = values.toFinset := by
  have hsortmem : ∀ v, v ∈ pySortStrings values → v ∈ values := by
    intro v hv
    exact (pySort_perm _ values).mem_iff.mp hv
  have hpart2 : decodeNSValue (encodeNSValue values) = pySortStrings values := by
    unfold decodeNSValue encodeNSValue
    have hdata : (String.mk (pyJoinChar ','
        ((pySortStrings values).map nsQuote))).data =
        pyJoinChar ',' ((pySortStrings values).map nsQuote) := rfl
    rw [hdata]
    have hnonempty : (pySortStrings values).map nsQuote ≠ [] := by
      intro h
      have h2 : pySortStrings values = [] := by
        cases hs : pySortStrings values with
        | nil => rfl
        | cons a l => rw [hs] at h; simp at h
      have h3 : ([] : List String).Perm values := h2 ▸ pySort_perm _ values
      exact hne h3.symm.eq_nil
    have hfree : ∀ s ∈ (pySortStrings values).map nsQuote, ',' ∉ s := by
      intro s hs
      rcases List.mem_map.mp hs with ⟨v, hv, rfl⟩
      have h1 := hcomma v (hsortmem v hv)
      unfold nsQuote
      intro hmem
      rcases List.mem_cons.mp hmem with he | hmem2
      · exact absurd he (by decide)
      · rcases List.mem_append.mp hmem2 with h3 | h3
        · exact h1 h3
        · rcases List.mem_singleton.mp h3 with he
          exact absurd he (by decide)
    rw [pySplitChar_pyJoinChar ',' _ hnonempty hfree, List.map_map]
    have : ∀ v ∈ pySortStrings values,
        ((fun item => String.mk (pyStrip1 item)) ∘ nsQuote) v = id v := by
      intro v _
      show String.mk (pyStrip1 (nsQuote v)) = v
      have hstrip : pyStrip1 (nsQuote v) = v.data := by
        unfold pyStrip1 nsQuote
        simp [List.dropLast_concat]
      rw [hstrip]
    rw [List.map_congr_left this, List.map_id]
  refine ⟨?_, hpart2, ?_⟩
  · unfold decodeNSName encodeNSName
    have hdata : ("@@ns." ++ name).data = "@@ns.".data ++ name.data :=
      String.data_append _ _
    rw [hdata, if_pos (isPrefixOf_append_self _ _)]
    have hlen : (5 : Nat) = ("@@ns.".data).length := rfl
    rw [hlen, List.drop_left]
  · rw [hpart2]
    exact List.toFinset_eq_of_perm _ _ (pySort_perm _ values)

/-- Witness for `C5_ns_roundtrip`: two comma-free NS targets. -/
theorem C5_ns_roundtrip_witness :
    decodeNSName (encodeNSName "sub.example.") = some "sub.example." ∧
    decodeNSValue (encodeNSValue ["ns2.example.", "ns1.example."]) =
      pySortStrings ["ns2.example.", "ns1.example."] ∧
    (decodeNSValue (encodeNSValue ["ns2.example.", "ns1.example."])).toFinset =
      (["ns2.example.", "ns1.example."] : List String).toFinset :=
  C5_ns_roundtrip "sub.example." ["ns2.example.", "ns1.example."]
    (by decide) (by decide)

/-- C5 counterexample.  The claim quantifies over every NS record set; a
target containing a comma is not recovered: `{"a,b"}` reads back as the
value set `{""}`. -/
theorem C5_ns_roundtrip_counterexample :
    decodeNSValue (encodeNSValue ["a,b"]) = ["", ""] ∧
    "a,b" ∉ decodeNSValue (encodeNSValue ["a,b"]) := by
  decide

/-- C6.  A volume is `available` exactly when every recorded attachment
status (libvirt-reported merged with tracker entries) is `detached`; a
volume with no recorded attachments is `available`; and `attach_volume`
raises `IncorrectState` (with the parameter and lookup checks passing) if
and only if the volume status at call time is not `available`. -/
theorem C6_volume_status (atts : List VolAttachment) (known : KnownAttachments)
    (domains volumes : List String) (iid vid dev : String) (dev2 : List Char)
    (hdev : stripDevice dev.data = some dev2)
    (hdom : domains.contains iid = true) (hvol : volumes.contains vid = true) :
    (_get_volume_status atts known vid = "available" ↔
      ∀ s ∈ volumeAttSet atts known vid, s = "detached") ∧
    (volumeAttSet atts known vid = [] →
      _get_volume_status atts known vid = "available") ∧
    (attach_volume (some iid) (some vid) (some dev) domains volumes atts known
        = .error .incorrectState ↔
      _get_volume_status atts known vid ≠ "available") := by
  refine ⟨?_, ?_, ?_⟩
  · by_cases hall : (volumeAttSet atts known vid).all (fun s => s == "detached")
    · have hforall := List.all_eq_true.mp hall
      simp only [beq_iff_eq] at hforall
      unfold _get_volume_status
      rw [if_pos hall]
      exact iff_of_true rfl hforall
    · have hnot : ¬ ∀ s ∈ volumeAttSet atts known vid, s = "detached" := by
        intro hforall
        exact hall (List.all_eq_true.mpr (fun s hs => beq_iff_eq.mpr (hforall s hs)))
      unfold _get_volume_status
      rw [if_neg hall]
      exact iff_of_false (by decide) hnot
  · intro hempty
    unfold _get_volume_status
    rw [hempty]
    rfl
  · by_cases hst : _get_volume_status atts known vid = "available"
    · simp only [attach_volume, hdev, hdom, hvol]
      simp [hst]
    · simp only [attach_volume, hdev, hdom, hvol]
      simp [hst]

/-- Witness for `C6_volume_status`: one libvirt attachment with no tracker
entry (hence status `attached`): the volume is `in-use` and AttachVolume
raises `IncorrectState`. -/
theorem C6_volume_status_witness :
    _get_volume_status [⟨"i-1", "vol-1", "vdb"⟩]
      [(("vol-1", "i-1"), ("vdb", "attached"))] "vol-1" = "in-use" ∧
    attach_volume (some "i-1") (some "vol-1") (some "/dev/vdc") ["i-1"]
      ["vol-1"] [⟨"i-1", "vol-1", "vdb"⟩]
      [(("vol-1", "i-1"), ("vdb", "attached"))] =
      .error .incorrectState := by
  have h := C6_volume_status [⟨"i-1", "vol-1", "vdb"⟩]
    [(("vol-1", "i-1"), ("vdb", "attached"))] ["i-1"] ["vol-1"]
    "i-1" "vol-1" "/dev/vdc" ("vdc".data) (by decide) (by decide) (by decide)
  exact ⟨by decide, h.2.2.mpr (by decide)⟩

/-! Order facts about the embedded Python string comparison. -/

theorem charListLt_irrefl : ∀ a : List Char, charListLt a a = false := by
  intro a
  induction a with
  | nil => rfl
  | cons c cs ih =>
    unfold charListLt
    rw [if_neg (lt_irrefl c), if_neg (lt_irrefl c)]
    exact ih

theorem charListLt_asymm :
    ∀ a b : List Char, charListLt a b = true → charListLt b a = false := by
  intro a
  induction a with
  | nil =>
    intro b h
    cases b with
    | nil => exact absurd h (by decide)
    | cons y ys => rfl
  | cons x xs ih =>
    intro b h
    cases b with
    | nil => exact absurd h (by simp [charListLt])
    | cons y ys =>
      unfold charListLt at h ⊢
      by_cases hxy : x < y
      · rw [if_neg (lt_asymm hxy), if_pos hxy]
      · rw [if_neg hxy] at h
        by_cases hyx : y < x
        · rw [if_pos hyx] at h
          exact absurd h (by decide)
        · rw [if_neg hyx] at h
          rw [if_neg hyx, if_neg hxy]
          exact ih ys h

theorem charListLt_conn :
    ∀ a b : List Char, charListLt a b = false → charListLt b a = false →
      a = b := by
  intro a
  induction a with
  | nil =>
    intro b h1 _
    cases b with
    | nil => rfl
    | cons y ys => exact absurd h1 (by simp [charListLt])
  | cons x xs ih =>
    intro b h1 h2
    cases b with
    | nil => exact absurd h2 (by simp [charListLt])
    | cons y ys =>
      unfold charListLt at h1 h2
      by_cases hxy : x < y
      · rw [if_pos hxy] at h1
        exact absurd h1 (by decide)
      · by_cases hyx : y < x
        · rw [if_pos hyx] at h2
          exact absurd h2 (by decide)
        · have hxey : x = y := le_antisymm (le_of_not_lt hyx) (le_of_not_lt hxy)
          rw [if_neg hxy, if_neg hyx] at h1
          rw [if_neg hyx, if_neg hxy] at h2
          rw [hxey, ih ys h1 h2]

theorem charListLt_neg_trans :
    ∀ a b c : List Char, charListLt a b = false → charListLt b c = false →
      charListLt a c = false := by
  intro a
  induction a with
  | nil =>
    intro b c h1 h2
    cases b with
    | nil =>
      cases c with
      | nil => rfl
      | cons z zs => exact absurd h2 (by simp [charListLt])
    | cons y ys => exact absurd h1 (by simp [charListLt])
  | cons x xs ih =>
    intro b c h1 h2
    cases b with
    | nil =>
      cases c with
      | nil => rfl
      | cons z zs => exact absurd h2 (by simp [charListLt])
    | cons y ys =>
      cases c with
      | nil => rfl
      | cons z zs =>
        unfold charListLt at h1 h2 ⊢
        by_cases hxy : x < y
        · rw [if_pos hxy] at h1
          exact absurd h1 (by decide)
        · by_cases hyz : y < z
          · rw [if_pos hyz] at h2
            exact absurd h2 (by decide)
          · by_cases hyx : y < x
            · by_cases hzy : z < y
              · have hzx : z < x := lt_trans hzy hyx
                rw [if_neg (lt_asymm hzx), if_pos hzx]
              · have hyez : y = z :=
                  le_antisymm (le_of_not_lt hzy) (le_of_not_lt hyz)
                have hzx : z < x := hyez ▸ hyx
                rw [if_neg (lt_asymm hzx), if_pos hzx]
            · have hxey : x = y :=
                le_antisymm (le_of_not_lt hyx) (le_of_not_lt hxy)
              rw [if_neg hxy, if_neg hyx] at h1
              by_cases hzy : z < y
              · have hzx : z < x := hxey ▸ hzy
                rw [if_neg (lt_asymm hzx), if_pos hzx]
              · have hyez : y = z :=
                  le_antisymm (le_of_not_lt hzy) (le_of_not_lt hyz)
                rw [if_neg hyz, if_neg hzy] at h2
                have hxez : x = z := hxey.trans hyez
                rw [if_neg (hxez ▸ lt_irrefl x), if_neg (hxez ▸ lt_irrefl x)]
                exact ih ys zs h1 h2

theorem keyLt_asymm :
    ∀ a b : String × String, keyLt a b = true → keyLt b a = false := by
  rintro ⟨a1, a2⟩ ⟨b1, b2⟩ h
  unfold keyLt at h ⊢
  simp only [Bool.or_eq_true, Bool.and_eq_true, beq_iff_eq] at h
  rcases h with h1 | ⟨rfl, h2⟩
  · have hba := charListLt_asymm _ _ h1
    have hne : ¬ b1 = a1 := by
      intro he
      rw [he, charListLt_irrefl] at h1
      exact absurd h1 (by decide)
    simp [hba, hne]
  · have h2a := charListLt_asymm _ _ h2
    simp [charListLt_irrefl, h2a]

theorem keyLt_neg_trans :
    ∀ a b c : String × String, keyLt a b = false → keyLt b c = false →
      keyLt a c = false := by
  rintro ⟨a1, a2⟩ ⟨b1, b2⟩ ⟨c1, c2⟩ h1 h2
  unfold keyLt at h1 h2 ⊢
  simp only [Bool.or_eq_false_iff, Bool.and_eq_false_iff,
    beq_eq_false_iff_ne] at h1 h2 ⊢
  obtain ⟨hab1, hab2⟩ := h1
  obtain ⟨hbc1, hbc2⟩ := h2
  have hac1 : charListLt a1.data c1.data = false :=
    charListLt_neg_trans _ _ _ hab1 hbc1
  refine ⟨hac1, ?_⟩
  by_cases ha1b1 : a1 = b1
  · by_cases hb1c1 : b1 = c1
    · rcases hab2 with he | hlt
      · exact absurd ha1b1 he
      · rcases hbc2 with he | hlt2
        · exact absurd hb1c1 he
        · right
          exact charListLt_neg_trans _ _ _ hlt hlt2
    · left
      intro he
      exact hb1c1 (by rw [← ha1b1]; exact he)
  · left
    intro he
    -- if a1 = c1 then b1 is squeezed between equal strings, so a1 = b1
    have hbc1a : charListLt b1.data a1.data = false := by
      rw [he]
      exact hbc1
    exact ha1b1 (String.ext (charListLt_conn _ _ hab1 hbc1a))

/-- Inserting into an ascending list keeps it ascending. -/
theorem insertSorted_pairwise (lt : α → α → Bool)
    (hasymm : ∀ a b, lt a b = true → lt b a = false)
    (hneg : ∀ a b c, lt a b = false → lt b c = false → lt a c = false)
    (x : α) :
    ∀ l, l.Pairwise (fun a b => lt b a = false) →
      (insertSorted lt x l).Pairwise (fun a b => lt b a = false) := by
  intro l
  induction l with
  | nil => intro _; simp [insertSorted]
  | cons y ys ih =>
    intro hp
    rw [List.pairwise_cons] at hp
    obtain ⟨hy, hys⟩ := hp
    unfold insertSorted
    by_cases hc : lt y x
    · rw [if_pos hc]
      rw [List.pairwise_cons]
      refine ⟨?_, ih hys⟩
      intro e he
      have hmem := (insertSorted_perm lt x ys).mem_iff.mp he
      rcases List.mem_cons.mp hmem with rfl | he2
      · exact hasymm y e hc
      · exact hy e he2
    · rw [if_neg hc]
      rw [List.pairwise_cons]
      refine ⟨?_, List.pairwise_cons.mpr ⟨hy, hys⟩⟩
      intro e he
      rcases List.mem_cons.mp he with rfl | he2
      · exact Bool.eq_false_iff.mpr hc
      · exact hneg e y x (hy e he2) (Bool.eq_false_iff.mpr hc)

/-- The embedded stable sort is ascending. -/
theorem pySort_pairwise (lt : α → α → Bool)
    (hasymm : ∀ a b, lt a b = true → lt b a = false)
    (hneg : ∀ a b c, lt a b = false → lt b c = false → lt a c = false) :
    ∀ l : List α, (pySort lt l).Pairwise (fun a b => lt b a = false) := by
  intro l
  induction l with
  | nil => exact List.Pairwise.nil
  | cons x xs ih =>
    unfold pySort
    exact insertSorted_pairwise lt hasymm hneg x (pySort lt xs) ih

/-- The bisect loop stays below its upper bound. -/
theorem bisect_left_loop_le (l : List α) (lt : α → α → Bool) (x : α) :
    ∀ d lo hi, hi - lo ≤ d → lo ≤ hi → bisect_left_loop l lt x lo hi ≤ hi := by
  intro d
  induction d with
  | zero =>
    intro lo hi h1 h2
    have : hi = lo := by omega
    subst this
    rw [bisect_left_loop, dif_neg (by omega)]
  | succ m ih =>
    intro lo hi h1 h2
    rw [bisect_left_loop]
    by_cases hlt : lo < hi
    · rw [dif_pos hlt]
      have hmidlo : lo ≤ (lo + hi) / 2 :=
        (Nat.le_div_iff_mul_le (by omega)).mpr (by omega)
      have hmidhi : (lo + hi) / 2 < hi :=
        (Nat.div_lt_iff_lt_mul (by omega)).mpr (by omega)
      by_cases hm : lt (l.getD ((lo + hi) / 2) x) x
      · rw [if_pos hm]
        exact ih _ _ (by omega) (by omega)
      · rw [if_neg hm]
        exact le_trans (ih _ _ (by omega) (by omega)) (le_of_lt hmidhi)
    · rw [dif_neg hlt]
      exact h2

/-- The bisect loop on a list whose prefix of elements `< x` is an initial
segment returns the boundary: everything before the result is `< x`,
everything from the result on is `≥ x`. -/
theorem bisect_left_loop_spec (l : List α) (lt : α → α → Bool) (x : α)
    (hmono : ∀ i j, i ≤ j → j < l.length →
      lt (l.getD j x) x = true → lt (l.getD i x) x = true) :
    ∀ d lo hi, hi - lo ≤ d → lo ≤ hi → hi ≤ l.length →
      (∀ i, i < lo → lt (l.getD i x) x = true) →
      (∀ i, hi ≤ i → i < l.length → lt (l.getD i x) x = false) →
      (∀ i, i < bisect_left_loop l lt x lo hi → lt (l.getD i x) x = true) ∧
      (∀ i, bisect_left_loop l lt x lo hi ≤ i → i < l.length →
        lt (l.getD i x) x = false) := by
  intro d
  induction d with
  | zero =>
    intro lo hi h1 h2 h3 hpre hsuf
    have : hi = lo := by omega
    subst this
    rw [bisect_left_loop, dif_neg (by omega)]
    exact ⟨hpre, fun i hi1 hi2 => hsuf i hi1 hi2⟩
  | succ m ih =>
    intro lo hi h1 h2 h3 hpre hsuf
    rw [bisect_left_loop]
    by_cases hlt : lo < hi
    · rw [dif_pos hlt]
      have hmidlo : lo ≤ (lo + hi) / 2 :=
        (Nat.le_div_iff_mul_le (by omega)).mpr (by omega)
      have hmidhi : (lo + hi) / 2 < hi :=
        (Nat.div_lt_iff_lt_mul (by omega)).mpr (by omega)
      by_cases hm : lt (l.getD ((lo + hi) / 2) x) x
      · rw [if_pos hm]
        refine ih _ _ (by omega) (by omega) h3 ?_ hsuf
        intro i hi1
        exact hmono i ((lo + hi) / 2) (by omega) (by omega) hm
      · rw [if_neg hm]
        refine ih _ _ (by omega) (by omega) (by omega) hpre ?_
        intro i hi1 hi2
        cases hv : lt (l.getD i x) x with
        | false => rfl
        | true =>
          exact absurd (hmono ((lo + hi) / 2) i hi1 hi2 hv) hm
    · rw [dif_neg hlt]
      have : hi = lo := by omega
      subst this
      exact ⟨hpre, fun i hi1 hi2 => hsuf i hi1 hi2⟩

/-- `findIdx` of the first index whose predicate holds, characterised by a
false prefix. -/
theorem findIdx_eq_of (p : α → Bool) (d : α) :
    ∀ (l : List α) (n : Nat), n ≤ l.length →
      (∀ i, i < n → p (l.getD i d) = false) →
      (n = l.length ∨ p (l.getD n d) = true) →
      l.findIdx p = n := by
  intro l
  induction l with
  | nil =>
    intro n hn _ _
    have : n = 0 := by simpa using hn
    subst this
    rfl
  | cons a as ih =>
    intro n hn hpre hat
    cases n with
    | zero =>
      rcases hat with h | h
      · simp at h
      · rw [List.getD_cons_zero] at h
        rw [List.findIdx_cons, h]
        rfl
    | succ k =>
      have hpa : p a = false := by
        have := hpre 0 (Nat.succ_pos k)
        rwa [List.getD_cons_zero] at this
      rw [List.findIdx_cons, hpa]
      have hrec : as.findIdx p = k := by
        refine ih k (by simpa using hn) ?_ ?_
        · intro i hik
          have := hpre (i + 1) (by omega)
          rwa [List.getD_cons_succ] at this
        · rcases hat with h | h
          · left
            simpa using h
          · right
            rwa [List.getD_cons_succ] at h
      simp [hrec]

/-- `pySlice` at a nonnegative offset with a limit covering the tail is
`List.drop`. -/
theorem pySlice_drop (l : List α) (ofs lim : Nat) (h : ofs ≤ l.length)
    (hlim : l.length ≤ ofs + lim) :
    pySlice l (ofs : Int) ((ofs + lim : Nat) : Int) = l.drop ofs := by
  simp only [pySlice]
  have h1 : (if ((ofs + lim : Nat) : Int) < 0 then
      max 0 (((ofs + lim : Nat) : Int) + (l.length : Int))
      else min ((ofs + lim : Nat) : Int) (l.length : Int)).toNat =
      l.length := by
    rw [if_neg (by omega)]
    omega
  have h2 : (if (ofs : Int) < 0 then
      max 0 ((ofs : Int) + (l.length : Int))
      else min (ofs : Int) (l.length : Int)).toNat = ofs := by
    rw [if_neg (by omega)]
    omega
  rw [h1, h2, List.take_length]

/-- C9.  ListResourceRecordSets sorts the zone records by
`(type, reversed-dotted-name)` (the output is an ascending permutation of
the input), locates the pagination offset by binary search: with `name`
and `type` the offset is the first position whose sort key is ≥
`(type, reversed(name))`; with `name` alone the offset is the binary-search
insertion point over the reversed names alone; and `type` without `name`
raises `InvalidInput`. -/
theorem C9_list_resource_record_sets (records : List RecEntry) (n ty : String)
    (hn : n.data ≠ []) (hty : ty.data ≠ []) :
    (sortRecords records).Pairwise
      (fun r s => keyLt (_sort_key s) (_sort_key r) = false) ∧
    (sortRecords records).Perm records ∧
    (list_resource_record_sets records (some n) (some ty) none =
      .ok ((sortRecords records).drop
        (((sortRecords records).map _sort_key).findIdx
          (fun k => ! keyLt k (ty, _name_key n))))) ∧
    (list_resource_record_sets records (some n) none none =
      .ok ((sortRecords records).drop
        (bisect_left ((sortRecords records).map (fun r => (_sort_key r).2))
          (fun a b => charListLt a.data b.data) (_name_key n)))) ∧
    list_resource_record_sets records none (some ty) none =
      .error .invalidInput := by
  have hpair : (sortRecords records).Pairwise
      (fun r s => keyLt (_sort_key s) (_sort_key r) = false) := by
    unfold sortRecords
    exact pySort_pairwise (fun r s => keyLt (_sort_key r) (_sort_key s))
      (fun a b h => keyLt_asymm _ _ h)
      (fun a b c h1 h2 => keyLt_neg_trans _ _ _ h1 h2) records
  have hperm : (sortRecords records).Perm records := pySort_perm _ records
  have hlen : (sortRecords records).length = records.length := hperm.length_eq
  have htrn : truthy (some n) = true := by
    simp [truthy, hn]
  have htrty : truthy (some ty) = true := by
    simp [truthy, hty]
  refine ⟨hpair, hperm, ?_, ?_, ?_⟩
  · -- name + type: binary search over the sort keys hits the first key ≥ target
    set S := sortRecords records with hS
    set keys := S.map _sort_key with hkeys
    set target : String × String := (ty, _name_key n) with htarget
    have hkeyslen : keys.length = records.length := by
      rw [hkeys, List.length_map, hlen]
    have hkeyspair : keys.Pairwise (fun a b => keyLt b a = false) :=
      List.pairwise_map.mpr hpair
    have hmono : ∀ i j, i ≤ j → j < keys.length →
        keyLt (keys.getD j target) target = true →
        keyLt (keys.getD i target) target = true := by
      intro i j hij hj hlt
      rcases Nat.eq_or_lt_of_le hij with rfl | hij'
      · exact hlt
      · have hi : i < keys.length := lt_trans hij' hj
        have hrel := List.pairwise_iff_getElem.mp hkeyspair i j hi hj hij'
        rw [List.getD_eq_getElem _ _ hj] at hlt
        rw [List.getD_eq_getElem _ _ hi]
        cases hv : keyLt keys[i] target with
        | true => rfl
        | false =>
          have hfalse := keyLt_neg_trans _ _ _ hrel hv
          exact absurd hlt (by rw [hfalse]; decide)
    have hble : bisect_left keys keyLt target ≤ keys.length :=
      bisect_left_loop_le keys keyLt target keys.length 0 keys.length
        (by omega) (by omega)
    obtain ⟨hbpre, hbsuf⟩ := bisect_left_loop_spec keys keyLt target hmono
      keys.length 0 keys.length (by omega) (by omega) (le_refl _)
      (fun i hi => absurd hi (by omega))
      (fun i h1 h2 => absurd h2 (by omega))
    have hfind : keys.findIdx (fun k => ! keyLt k target) =
        bisect_left keys keyLt target := by
      refine findIdx_eq_of _ target keys _ hble ?_ ?_
      · intro i hi
        have h1 := hbpre i hi
        show (! keyLt (keys.getD i target) target) = false
        rw [h1]
        rfl
      · rcases Nat.eq_or_lt_of_le hble with he | hlt
        · exact Or.inl he
        · right
          have h2 := hbsuf (bisect_left keys keyLt target) (le_refl _) hlt
          show (! keyLt (keys.getD (bisect_left keys keyLt target) target)
            target) = true
          rw [h2]
          rfl
    have heval : list_resource_record_sets records (some n) (some ty) none =
        .ok (pySlice S (bisect_left keys keyLt target : Int)
          ((bisect_left keys keyLt target + records.length : Nat) : Int)) := by
      simp only [list_resource_record_sets, htrn, htrty, Bool.and_self,
        if_pos, Option.getD_some]
      rfl
    rw [heval, hfind]
    rw [pySlice_drop S _ records.length (by omega) (by omega)]
  · -- name alone: binary search over the reversed names
    set S := sortRecords records with hS
    set names := S.map (fun r => (_sort_key r).2) with hnames
    set r2 := bisect_left names (fun a b => charListLt a.data b.data)
      (_name_key n) with hr2
    have hnameslen : names.length = records.length := by
      rw [hnames, List.length_map, hlen]
    have hble : r2 ≤ names.length :=
      bisect_left_loop_le names _ _ names.length 0 names.length
        (by omega) (by omega)
    have heval : list_resource_record_sets records (some n) none none =
        .ok (pySlice S (r2 : Int) ((r2 + records.length : Nat) : Int)) := by
      simp only [list_resource_record_sets, htrn, Bool.and_false,
        Option.getD_some]
      rfl
    rw [heval]
    rw [pySlice_drop S _ records.length (by omega) (by omega)]
  · -- type without name
    simp only [list_resource_record_sets, htrty, Bool.false_and]
    rfl

/-- Witness for `C9_list_resource_record_sets`: a three-record zone. -/
theorem C9_list_resource_record_sets_witness :
    (sortRecords [(("A", "b.example."), {"1.1.1.1"}),
                  (("TXT", "a.example."), {"x"}),
                  (("A", "a.example."), {"2.2.2.2"})]).Pairwise
      (fun r s => keyLt (_sort_key s) (_sort_key r) = false) ∧
    (sortRecords [(("A", "b.example."), {"1.1.1.1"}),
                  (("TXT", "a.example."), {"x"}),
                  (("A", "a.example."), {"2.2.2.2"})]).Perm
      [(("A", "b.example."), {"1.1.1.1"}),
       (("TXT", "a.example."), {"x"}),
       (("A", "a.example."), {"2.2.2.2"})] ∧
    (list_resource_record_sets
      [(("A", "b.example."), {"1.1.1.1"}),
       (("TXT", "a.example."), {"x"}),
       (("A", "a.example."), {"2.2.2.2"})] (some "b.example.") (some "A") none =
      .ok ((sortRecords [(("A", "b.example."), {"1.1.1.1"}),
                         (("TXT", "a.example."), {"x"}),
                         (("A", "a.example."), {"2.2.2.2"})]).drop
        (((sortRecords [(("A", "b.example."), {"1.1.1.1"}),
                        (("TXT", "a.example."), {"x"}),
                        (("A", "a.example."), {"2.2.2.2"})]).map _sort_key).findIdx
          (fun k => ! keyLt k ("A", _name_key "b.example."))))) ∧
    (list_resource_record_sets
      [(("A", "b.example."), {"1.1.1.1"}),
       (("TXT", "a.example."), {"x"}),
       (("A", "a.example."), {"2.2.2.2"})] (some "b.example.") none none =
      .ok ((sortRecords [(("A", "b.example."), {"1.1.1.1"}),
                         (("TXT", "a.example."), {"x"}),
                         (("A", "a.example."), {"2.2.2.2"})]).drop
        (bisect_left ((sortRecords [(("A", "b.example."), {"1.1.1.1"}),
                                    (("TXT", "a.example."), {"x"}),
                                    (("A", "a.example."), {"2.2.2.2"})]).map
            (fun r => (_sort_key r).2))
          (fun a b => charListLt a.data b.data) (_name_key "b.example.")))) ∧
    list_resource_record_sets
      [(("A", "b.example."), {"1.1.1.1"}),
       (("TXT", "a.example."), {"x"}),
       (("A", "a.example."), {"2.2.2.2"})] none (some "A") none =
      .error .invalidInput :=
  C9_list_resource_record_sets
    [(("A", "b.example."), {"1.1.1.1"}),
     (("TXT", "a.example."), {"x"}),
     (("A", "a.example."), {"2.2.2.2"})] "b.example." "A"
    (by decide) (by decide)

/-! Decimal rendering round-trips through `int()`. -/

theorem digitChar_isDigit (d : Nat) : (digitChar d).isDigit = true := by
  unfold digitChar
  repeat' split
  all_goals decide

theorem digitChar_toNat (d : Nat) (h : d < 10) :
    (digitChar d).toNat - 48 = d := by
  interval_cases d <;> decide

theorem decimalVal_append_digit (a : List Char) (c : Char) :
    decimalVal (a ++ [c]) = decimalVal a * 10 + (c.toNat - 48) := by
  simp [decimalVal, List.foldl_append]

theorem natToDecAux_all_digits :
    ∀ fuel n, (natToDecAux fuel n).all Char.isDigit = true := by
  intro fuel
  induction fuel with
  | zero => intro n; simp [natToDecAux, digitChar_isDigit]
  | succ m ih =>
    intro n
    unfold natToDecAux
    by_cases h : n < 10
    · rw [if_pos h]
      simp [digitChar_isDigit]
    · rw [if_neg h]
      simp [List.all_append, ih, digitChar_isDigit]

theorem natToDecAux_ne_nil : ∀ fuel n, natToDecAux fuel n ≠ [] := by
  intro fuel
  induction fuel with
  | zero => intro n; simp [natToDecAux]
  | succ m ih =>
    intro n
    unfold natToDecAux
    by_cases h : n < 10
    · rw [if_pos h]; simp
    · rw [if_neg h]; simp

theorem decimalVal_natToDecAux :
    ∀ fuel n, n ≤ fuel → decimalVal (natToDecAux fuel n) = n := by
  intro fuel
  induction fuel with
  | zero =>
    intro n h
    have : n = 0 := by omega
    subst this
    decide
  | succ m ih =>
    intro n h
    unfold natToDecAux
    by_cases h10 : n < 10
    · rw [if_pos h10]
      show decimalVal ([] ++ [digitChar n]) = n
      rw [decimalVal_append_digit, digitChar_toNat n h10]
      simp [decimalVal]
    · rw [if_neg h10]
      rw [decimalVal_append_digit, digitChar_toNat (n % 10) (by omega)]
      rw [ih (n / 10) (by omega)]
      omega

theorem decimalVal_natToDec (n : Nat) : decimalVal (natToDec n) = n :=
  decimalVal_natToDecAux n n (le_refl n)

theorem natToDec_numeric (n : Nat) : isNumericSeg (natToDec n) = true := by
  simp [isNumericSeg, natToDec, natToDecAux_all_digits, List.isEmpty_iff,
    natToDecAux_ne_nil n n]

theorem natToDec_no_dot (n : Nat) : ('.' : Char) ∉ natToDec n := by
  intro hmem
  have hall := natToDecAux_all_digits n n
  rw [List.all_eq_true] at hall
  have := hall '.' hmem
  exact absurd this (by decide)

theorem segKey_natToDec (n : Nat) :
    segKey (natToDec n) = .i ((n : Int) - 1) := by
  unfold segKey
  rw [if_pos (natToDec_numeric n), decimalVal_natToDec]

theorem validKey_segKey (k : String) (h : validKey k = true) :
    segKey k.data = .s k := by
  unfold validKey at h
  simp only [Bool.and_eq_true, Bool.not_eq_true'] at h
  unfold segKey
  rw [if_neg (by rw [h.2]; exact fun hc => absurd hc (by decide))]

theorem validKey_ne_nil (k : String) (h : validKey k = true) :
    k.data ≠ [] := by
  unfold validKey at h
  simp only [Bool.and_eq_true, Bool.not_eq_true'] at h
  intro he
  rw [List.isEmpty_iff.mpr he] at h
  exact absurd h.1.1 (by decide)

theorem validKey_no_dot (k : String) (h : validKey k = true) :
    ('.' : Char) ∉ k.data := by
  unfold validKey at h
  simp only [Bool.and_eq_true, Bool.not_eq_true'] at h
  intro hc
  have := h.1.2
  simp_all

/-! Dict and sparse-list primitives. -/

theorem dictGet_dictSet_self :
    ∀ (es : List (PKey × PVal)) (k : PKey) (x : PVal),
      dictGet (dictSet es k x) k = .found (some x) := by
  intro es k x
  induction es with
  | nil => simp [dictSet, dictGet]
  | cons kv rest ih =>
    obtain ⟨k1, v1⟩ := kv
    by_cases he : k1 = k
    · simp only [dictSet, if_pos he, dictGet]
    · simp only [dictSet, if_neg he, dictGet, ih]

theorem dictSet_dictSet :
    ∀ (es : List (PKey × PVal)) (k : PKey) (x y : PVal),
      dictSet (dictSet es k x) k y = dictSet es k y := by
  intro es k x y
  induction es with
  | nil => simp [dictSet]
  | cons kv rest ih =>
    obtain ⟨k1, v1⟩ := kv
    by_cases he : k1 = k
    · simp only [dictSet, if_pos he]
    · simp only [dictSet, if_neg he, ih]

theorem dictGet_append :
    ∀ (A B : List (PKey × PVal)) (k : PKey),
      dictGet (A ++ B) k =
        match dictGet A k with
        | .miss => dictGet B k
        | r => r := by
  intro A B k
  induction A with
  | nil => rfl
  | cons kv rest ih =>
    obtain ⟨k1, v1⟩ := kv
    by_cases he : k1 = k
    · simp only [List.cons_append, dictGet, if_pos he]
    · simp only [List.cons_append, dictGet, if_neg he, List.append_eq, ih]

theorem dictSet_eq_append :
    ∀ (es : List (PKey × PVal)) (k : PKey) (v : PVal),
      dictGet es k = .miss → dictSet es k v = es ++ [(k, v)] := by
  intro es k v h
  induction es with
  | nil => rfl
  | cons kv rest ih =>
    obtain ⟨k1, v1⟩ := kv
    unfold dictGet at h
    by_cases he : k1 = k
    · rw [if_pos he] at h
      exact absurd h (by simp)
    · rw [if_neg he] at h
      simp only [dictSet, if_neg he, ih h, List.cons_append]

theorem replicate_set_last :
    ∀ (g : Nat) (x : PVal),
      (List.replicate (g + 1) (none : Option PVal)).set g (some x) =
        List.replicate g none ++ [some x] := by
  intro g x
  induction g with
  | zero => rfl
  | succ m ih =>
    rw [List.replicate_succ]
    show (none :: List.replicate (m + 1) none).set (m + 1) (some x) = _
    rw [List.set_cons_succ, ih]
    rfl

theorem slistSet_shape (l : List (Option PVal)) (n : Nat) (x : PVal)
    (h : l.length ≤ n) :
    slistSet l (n : Int) x =
      some (l ++ List.replicate (n - l.length) none ++ [some x]) := by
  have hE : (if ((n : Int) - (l.length : Int) + 1 > 0) then
      l ++ List.replicate (((n : Int) - (l.length : Int) + 1).toNat) none
      else l) = l ++ List.replicate (n - l.length + 1) none := by
    rw [if_pos (by omega)]
    congr 2
    omega
  simp only [slistSet]
  rw [hE]
  rw [if_neg (show ¬ ((n : Int) < 0) by omega)]
  have hlen2 : (l ++ List.replicate (n - l.length + 1)
      (none : Option PVal)).length = n + 1 := by
    simp
    omega
  rw [hlen2]
  rw [if_pos (by constructor <;> omega)]
  have hidx : ((n : Int)).toNat = n := by omega
  rw [hidx]
  rw [List.set_append_right _ _ (by omega)]
  have hrep : List.replicate (n - l.length + 1) (none : Option PVal) =
      List.replicate ((n - l.length) + 1) none := rfl
  rw [hrep, replicate_set_last (n - l.length) x, ← List.append_assoc]

theorem slistSet_inrange (l : List (Option PVal)) (n : Nat) (x : PVal)
    (h : n < l.length) :
    slistSet l (n : Int) x = some (l.set n (some x)) := by
  have hE : (if ((n : Int) - (l.length : Int) + 1 > 0) then
      l ++ List.replicate (((n : Int) - (l.length : Int) + 1).toNat) none
      else l) = l := by
    rw [if_neg (by omega)]
  simp only [slistSet]
  rw [hE]
  rw [if_neg (show ¬ ((n : Int) < 0) by omega)]
  rw [if_pos (by constructor <;> omega)]
  have hidx : ((n : Int)).toNat = n := by omega
  rw [hidx]

/-! Structure of the encoder output. -/

theorem sizeOf_mem_entries {es : List (String × QTree)} {k : String}
    {t : QTree} (h : (k, t) ∈ es) : sizeOf t < sizeOf (QTree.map es) := by
  have h1 := List.sizeOf_lt_of_mem h
  simp only [Prod.mk.sizeOf_spec] at h1
  simp only [QTree.map.sizeOf_spec]
  omega

theorem sizeOf_mem_elems {es : List (Option QTree)} {t : QTree}
    (h : some t ∈ es) : sizeOf t < sizeOf (QTree.list es) := by
  have h1 := List.sizeOf_lt_of_mem h
  simp only [Option.some.sizeOf_spec] at h1
  simp only [QTree.list.sizeOf_spec]
  omega

theorem encodeEntries_prefix (es : List (String × QTree))
    (IH : ∀ k t, (k, t) ∈ es → ∀ p q, encodePaths (p ++ q) t =
      (encodePaths q t).map (fun pv => (p ++ pv.1, pv.2))) :
    ∀ p q, encodeEntries (p ++ q) es =
      (encodeEntries q es).map (fun pv => (p ++ pv.1, pv.2)) := by
  induction es with
  | nil => intro p q; rfl
  | cons kt rest ih =>
    obtain ⟨k, t⟩ := kt
    intro p q
    show encodePaths ((p ++ q) ++ [k.data]) t ++ encodeEntries (p ++ q) rest = _
    rw [List.append_assoc p q [k.data]]
    rw [IH k t (List.mem_cons_self _ _) p (q ++ [k.data])]
    rw [ih (fun k2 t2 hm => IH k2 t2 (List.mem_cons_of_mem _ hm)) p q]
    show _ = (encodePaths (q ++ [k.data]) t ++ encodeEntries q rest).map _
    rw [List.map_append]

theorem encodeElems_prefix (es : List (Option QTree))
    (IH : ∀ t, some t ∈ es → ∀ p q, encodePaths (p ++ q) t =
      (encodePaths q t).map (fun pv => (p ++ pv.1, pv.2))) :
    ∀ p q i, encodeElems (p ++ q) i es =
      (encodeElems q i es).map (fun pv => (p ++ pv.1, pv.2)) := by
  induction es with
  | nil => intro p q i; rfl
  | cons o rest ih =>
    intro p q i
    cases o with
    | none =>
      show encodeElems (p ++ q) (i + 1) rest = _
      exact ih (fun t2 hm => IH t2 (List.mem_cons_of_mem _ hm)) p q (i + 1)
    | some t =>
      show encodePaths ((p ++ q) ++ [natToDec i]) t ++
        encodeElems (p ++ q) (i + 1) rest = _
      rw [List.append_assoc p q [natToDec i]]
      rw [IH t (List.mem_cons_self _ _) p (q ++ [natToDec i])]
      rw [ih (fun t2 hm => IH t2 (List.mem_cons_of_mem _ hm)) p q (i + 1)]
      show _ = (encodePaths (q ++ [natToDec i]) t ++
        encodeElems q (i + 1) rest).map _
      rw [List.map_append]

theorem encodePaths_prefix_aux :
    ∀ (N : Nat) (t : QTree), sizeOf t < N → ∀ p q,
      encodePaths (p ++ q) t =
        (encodePaths q t).map (fun pv => (p ++ pv.1, pv.2)) := by
  intro N
  induction N with
  | zero => intro t h; exact absurd h (by omega)
  | succ N ih =>
    intro t ht p q
    cases t with
    | leaf s => rfl
    | map es =>
      show encodeEntries (p ++ q) es = (encodeEntries q es).map _
      exact encodeEntries_prefix es
        (fun k t2 hm => ih t2 (by
          have := sizeOf_mem_entries hm
          omega)) p q
    | list es =>
      show encodeElems (p ++ q) 1 es = (encodeElems q 1 es).map _
      exact encodeElems_prefix es
        (fun t2 hm => ih t2 (by
          have := sizeOf_mem_elems hm
          omega)) p q 1

theorem encodePaths_prefix (t : QTree) (p q : List (List Char)) :
    encodePaths (p ++ q) t =
      (encodePaths q t).map (fun pv => (p ++ pv.1, pv.2)) :=
  encodePaths_prefix_aux (sizeOf t + 1) t (by omega) p q

/-- Every emitted path extends the prefix. -/
theorem encodePaths_starts (t : QTree) (p : List (List Char))
    (pv : List (List Char) × String) (h : pv ∈ encodePaths p t) :
    ∃ q, pv.1 = p ++ q := by
  have he : encodePaths p t = encodePaths (p ++ []) t := by rw [List.append_nil]
  rw [he, encodePaths_prefix t p []] at h
  rcases List.mem_map.mp h with ⟨pv0, _, rfl⟩
  exact ⟨pv0.1, rfl⟩

theorem encodeEntries_prefix_nil (es : List (String × QTree)) (p : List (List Char)) :
    encodeEntries p es = (encodeEntries [] es).map (fun pv => (p ++ pv.1, pv.2)) := by
  have h := encodeEntries_prefix es
    (fun k t _ p2 q2 => encodePaths_prefix t p2 q2) p []
  rwa [List.append_nil] at h

theorem encodeElems_prefix_nil (es : List (Option QTree)) (p : List (List Char)) (i : Nat) :
    encodeElems p i es = (encodeElems [] i es).map (fun pv => (p ++ pv.1, pv.2)) := by
  have h := encodeElems_prefix es
    (fun t _ p2 q2 => encodePaths_prefix t p2 q2) p [] i
  rwa [List.append_nil] at h

/-- Paths of entry items are nonempty (they start with the entry key). -/
theorem encodeEntries_paths_ne_nil (es : List (String × QTree))
    (pv : List (List Char) × String) (h : pv ∈ encodeEntries [] es) :
    pv.1 ≠ [] := by
  induction es with
  | nil => cases h
  | cons kt rest ih =>
    obtain ⟨k, t⟩ := kt
    rcases List.mem_append.mp h with h1 | h2
    · obtain ⟨q, hq⟩ := encodePaths_starts t [k.data] pv h1
      rw [hq]
      simp
    · exact ih h2

theorem encodeElems_paths_ne_nil (es : List (Option QTree)) :
    ∀ (i : Nat) (pv : List (List Char) × String), pv ∈ encodeElems [] i es →
    pv.1 ≠ [] := by
  induction es with
  | nil => intro i pv h; cases h
  | cons o rest ih =>
    intro i pv h
    cases o with
    | none => exact ih (i + 1) pv h
    | some t =>
      rcases List.mem_append.mp h with h1 | h2
      · obtain ⟨q, hq⟩ := encodePaths_starts t [natToDec i] pv h1
        rw [hq]
        simp
      · exact ih (i + 1) pv h2

/-! Nonemptiness of the encoding of well-formed trees. -/

theorem wfElems_mem (es : List (Option QTree)) (t : QTree)
    (hm : some t ∈ es) (hwf : wfElems es = true) : wfTree t = true := by
  induction es with
  | nil => cases hm
  | cons o rest ih =>
    rcases List.mem_cons.mp hm with rfl | hm2
    · unfold wfElems at hwf
      simp only [Bool.and_eq_true] at hwf
      exact hwf.1
    · cases o with
      | none => exact ih hm2 hwf
      | some t3 =>
        unfold wfElems at hwf
        simp only [Bool.and_eq_true] at hwf
        exact ih hm2 hwf.2

theorem wfEntries_mem (es : List (String × QTree)) (k : String) (t : QTree)
    (hm : (k, t) ∈ es) (hwf : wfEntries es = true) : wfTree t = true := by
  induction es with
  | nil => cases hm
  | cons kt rest ih =>
    obtain ⟨k2, t2⟩ := kt
    unfold wfEntries at hwf
    simp only [Bool.and_eq_true] at hwf
    rcases List.mem_cons.mp hm with heq | hm2
    · cases heq
      exact hwf.1.2
    · exact ih hm2 hwf.2

theorem encodeElems_ne_nil_aux (es : List (Option QTree))
    (IH : ∀ t, some t ∈ es → ∀ p, encodePaths p t ≠ []) :
    ∀ i, isLastSome es = true → encodeElems [] i es ≠ [] := by
  induction es with
  | nil => intro i h; exact absurd h (by decide)
  | cons o rest ih =>
    intro i h
    cases o with
    | none =>
      show encodeElems [] (i + 1) rest ≠ []
      cases rest with
      | nil => exact absurd h (by decide)
      | cons o2 rest2 =>
        exact ih (fun t hm => IH t (List.mem_cons_of_mem _ hm)) (i + 1)
          (by
            cases o2 <;> cases rest2 <;> simp_all [isLastSome])
    | some t =>
      show encodePaths [natToDec i] t ++ encodeElems [] (i + 1) rest ≠ []
      have h1 := IH t (List.mem_cons_self _ _) [natToDec i]
      intro hcon
      rcases List.append_eq_nil.mp hcon with ⟨he1, _⟩
      exact h1 he1

theorem encodePaths_ne_nil_aux :
    ∀ (N : Nat) (t : QTree), sizeOf t < N → wfTree t = true → ∀ p,
      encodePaths p t ≠ [] := by
  intro N
  induction N with
  | zero => intro t h; exact absurd h (by omega)
  | succ N ih =>
    intro t ht hwf p
    cases t with
    | leaf s => simp [encodePaths]
    | map es =>
      unfold wfTree at hwf
      simp only [Bool.and_eq_true] at hwf
      cases es with
      | nil => exact absurd hwf.1.1 (by decide)
      | cons kt rest =>
        obtain ⟨k, t1⟩ := kt
        show encodePaths (p ++ [k.data]) t1 ++ encodeEntries p rest ≠ []
        have hwf1 : wfTree t1 = true := by
          have h2 := hwf.2
          unfold wfEntries at h2
          simp only [Bool.and_eq_true] at h2
          exact h2.1.2
        have h1 := ih t1 (by
          have := sizeOf_mem_entries (List.mem_cons_self (k, t1) rest)
          omega) hwf1 (p ++ [k.data])
        intro hcon
        rcases List.append_eq_nil.mp hcon with ⟨he1, _⟩
        exact h1 he1
    | list es =>
      unfold wfTree at hwf
      simp only [Bool.and_eq_true] at hwf
      show encodeElems p 1 es ≠ []
      rw [encodeElems_prefix_nil es p 1]
      intro hcon
      have h2 : encodeElems [] 1 es = [] := by
        cases he : encodeElems [] 1 es with
        | nil => rfl
        | cons a l => rw [he] at hcon; simp at hcon
      exact encodeElems_ne_nil_aux es
        (fun t2 hm p2 => ih t2 (by
          have := sizeOf_mem_elems hm
          omega) (wfElems_mem es t2 hm hwf.2) p2)
        1 hwf.1.2 h2

theorem encodePaths_ne_nil (t : QTree) (h : wfTree t = true)
    (p : List (List Char)) : encodePaths p t ≠ [] :=
  encodePaths_ne_nil_aux (sizeOf t + 1) t (by omega) h p

/-! Pointer-level get/set primitives under `goodKey`. -/

theorem getD_set_self : ∀ (l : List (Option PVal)) (n : Nat) (a : Option PVal),
    n < l.length → l.getD n none = a → l.set n a = l := by
  intro l
  induction l with
  | nil => intro n a h; simp at h
  | cons x xs ih =>
    intro n a h hg
    cases n with
    | zero => simp [List.getD] at hg; simp [hg]
    | succ m =>
      simp only [List.set_cons_succ]
      rw [ih m a (by simpa using h) (by simpa [List.getD] using hg)]

theorem pyIndex_nat_lt (l : List (Option PVal)) (m : Nat) (h : m < l.length) :
    pyIndex l (m : Int) = .found (l.getD m none) := by
  simp only [pyIndex]
  rw [if_neg (show ¬ ((m : Int) < 0) by omega)]
  rw [if_pos (⟨by omega, by exact_mod_cast h⟩ :
    (0 : Int) ≤ (m : Int) ∧ (m : Int) < (l.length : Int))]
  simp

theorem pyIndex_nat_ge (l : List (Option PVal)) (m : Nat) (h : l.length ≤ m) :
    pyIndex l (m : Int) = .miss := by
  simp only [pyIndex]
  rw [if_neg (show ¬ ((m : Int) < 0) by omega)]
  rw [if_neg (show ¬ ((0 : Int) ≤ (m : Int) ∧ (m : Int) < (l.length : Int)) by
    intro hc
    have := hc.2
    omega)]

theorem pySet_total (cur : PVal) (k : PKey) (x : PVal)
    (hg : goodKey cur k) : ∃ cur2, pySet cur k x = some cur2 := by
  cases cur with
  | str v => exact absurd hg (by simp [goodKey])
  | dict es => exact ⟨_, rfl⟩
  | slist l =>
    cases k with
    | s k2 => exact absurd hg (by simp [goodKey])
    | i n =>
      have hn : 0 ≤ n := hg
      obtain ⟨m, rfl⟩ : ∃ m : Nat, n = (m : Int) := ⟨n.toNat, by omega⟩
      by_cases hlt : m < l.length
      · refine ⟨PVal.slist (l.set m (some x)), ?_⟩
        simp only [pySet, slistSet_inrange l m x hlt]
      · refine ⟨PVal.slist (l ++ List.replicate (m - l.length) none ++ [some x]), ?_⟩
        simp only [pySet, slistSet_shape l m x (by omega)]

theorem getD_append_of_length (A : List (Option PVal)) (x : Option PVal)
    (m : Nat) (h : A.length = m) : (A ++ [x]).getD m none = x := by
  subst h
  rw [List.getD_eq_getElem?_getD, List.getElem?_eq_getElem (by simp)]
  simp

theorem set_append_of_length (A : List (Option PVal)) (x y : Option PVal)
    (m : Nat) (h : A.length = m) : (A ++ [x]).set m y = A ++ [y] := by
  subst h
  rw [List.set_append_right _ _ (by omega)]
  simp

theorem dictSet_get_self : ∀ (es : List (PKey × PVal)) (k : PKey) (v : PVal),
    dictGet es k = .found (some v) → dictSet es k v = es := by
  intro es k v h
  induction es with
  | nil => exact absurd h (by simp [dictGet])
  | cons kv rest ih =>
    obtain ⟨k1, w⟩ := kv
    unfold dictGet at h
    by_cases he : k1 = k
    · rw [if_pos he] at h
      have hw : w = v := by
        cases h
        rfl
      rw [hw]
      simp only [dictSet, if_pos he]
    · rw [if_neg he] at h
      simp only [dictSet, if_neg he, ih h]

/-- Setting a slot to the value it already holds is the identity. -/
theorem pySet_get_self (cur : PVal) (k : PKey) (v : PVal)
    (hg : goodKey cur k) (hget : pyGet cur k = .found (some v)) :
    pySet cur k v = some cur := by
  cases cur with
  | str s => exact absurd hg (by simp [goodKey])
  | dict es =>
    have h1 : dictGet es k = .found (some v) := hget
    simp only [pySet, dictSet_get_self es k v h1]
  | slist l =>
    cases k with
    | s k2 => exact absurd hg (by simp [goodKey])
    | i n =>
      have hn : 0 ≤ n := hg
      obtain ⟨m, rfl⟩ : ∃ m : Nat, n = (m : Int) := ⟨n.toNat, by omega⟩
      by_cases hlt : m < l.length
      · have h1 : pyIndex l (m : Int) = .found (l.getD m none) :=
          pyIndex_nat_lt l m hlt
        have h2 : l.getD m none = some v := by
          have h3 : pyIndex l (m : Int) = .found (some v) := hget
          rw [h1] at h3
          injection h3
        simp only [pySet, slistSet_inrange l m v hlt,
          getD_set_self l m (some v) hlt h2]
      · have h1 : pyIndex l (m : Int) = .miss := pyIndex_nat_ge l m (by omega)
        have h3 : pyIndex l (m : Int) = .found (some v) := hget
        rw [h1] at h3
        cases h3

/-- Reading back a freshly set slot. -/
theorem pySet_pyGet (cur : PVal) (k : PKey) (x : PVal) (cur2 : PVal)
    (hg : goodKey cur k) (hs : pySet cur k x = some cur2) :
    pyGet cur2 k = .found (some x) := by
  cases cur with
  | str s => exact absurd hg (by simp [goodKey])
  | dict es =>
    have h1 : cur2 = .dict (dictSet es k x) := by
      simp only [pySet] at hs
      cases hs
      rfl
    rw [h1]
    exact dictGet_dictSet_self es k x
  | slist l =>
    cases k with
    | s k2 => exact absurd hg (by simp [goodKey])
    | i n =>
      have hn : 0 ≤ n := hg
      obtain ⟨m, rfl⟩ : ∃ m : Nat, n = (m : Int) := ⟨n.toNat, by omega⟩
      by_cases hlt : m < l.length
      · rw [show pySet (.slist l) (.i (m : Int)) x =
            some (.slist (l.set m (some x))) by
          simp only [pySet, slistSet_inrange l m x hlt]] at hs
        cases hs
        show pyIndex (l.set m (some x)) (m : Int) = .found (some x)
        rw [pyIndex_nat_lt _ m (by simp [hlt])]
        rw [List.getD_eq_getElem?_getD, List.getElem?_eq_getElem (by simp [hlt])]
        simp
      · rw [show pySet (.slist l) (.i (m : Int)) x =
            some (.slist (l ++ List.replicate (m - l.length) none ++ [some x])) by
          simp only [pySet, slistSet_shape l m x (by omega)]] at hs
        cases hs
        show pyIndex _ (m : Int) = .found (some x)
        have hlen : (l ++ List.replicate (m - l.length)
            (none : Option PVal)).length = m := by
          simp
          omega
        rw [pyIndex_nat_lt _ m (by simp; omega)]
        rw [getD_append_of_length _ (some x) m hlen]

/-- Overwriting a freshly set slot is the same as setting it directly. -/
theorem pySet_pySet (cur : PVal) (k : PKey) (x : PVal) (cur2 : PVal)
    (hg : goodKey cur k) (hs : pySet cur k x = some cur2) (y : PVal) :
    pySet cur2 k y = pySet cur k y := by
  cases cur with
  | str s => exact absurd hg (by simp [goodKey])
  | dict es =>
    have h1 : cur2 = .dict (dictSet es k x) := by
      simp only [pySet] at hs
      cases hs
      rfl
    rw [h1]
    simp only [pySet, dictSet_dictSet]
  | slist l =>
    cases k with
    | s k2 => exact absurd hg (by simp [goodKey])
    | i n =>
      have hn : 0 ≤ n := hg
      obtain ⟨m, rfl⟩ : ∃ m : Nat, n = (m : Int) := ⟨n.toNat, by omega⟩
      by_cases hlt : m < l.length
      · rw [show pySet (.slist l) (.i (m : Int)) x =
            some (.slist (l.set m (some x))) by
          simp only [pySet, slistSet_inrange l m x hlt]] at hs
        cases hs
        have h2 : pySet (.slist (l.set m (some x))) (.i (m : Int)) y =
            some (.slist ((l.set m (some x)).set m (some y))) := by
          simp only [pySet,
            slistSet_inrange (l.set m (some x)) m y (by simp [hlt])]
        have h3 : pySet (.slist l) (.i (m : Int)) y =
            some (.slist (l.set m (some y))) := by
          simp only [pySet, slistSet_inrange l m y hlt]
        rw [h2, h3, List.set_set]
      · rw [show pySet (.slist l) (.i (m : Int)) x =
            some (.slist (l ++ List.replicate (m - l.length) none ++ [some x])) by
          simp only [pySet, slistSet_shape l m x (by omega)]] at hs
        cases hs
        have hlen : (l ++ List.replicate (m - l.length)
            (none : Option PVal)).length = m := by
          simp
          omega
        have h2 : pySet (.slist (l ++ List.replicate (m - l.length) none ++
            [some x])) (.i (m : Int)) y = some (.slist ((l ++
            List.replicate (m - l.length) none ++ [some x]).set m (some y))) := by
          simp only [pySet, slistSet_inrange
            (l ++ List.replicate (m - l.length) none ++ [some x]) m y
            (by simp; omega)]
        have h3 : pySet (.slist l) (.i (m : Int)) y =
            some (.slist (l ++ List.replicate (m - l.length) none ++ [some y])) := by
          simp only [pySet, slistSet_shape l m y (by omega)]
        rw [h2, h3, set_append_of_length _ (some x) (some y) m hlen]

/-- A successful set preserves the container/key shape. -/
theorem pySet_goodKey (cur : PVal) (k : PKey) (x : PVal) (cur2 : PVal)
    (hg : goodKey cur k) (hs : pySet cur k x = some cur2) :
    goodKey cur2 k := by
  cases cur with
  | str s => exact absurd hg (by simp [goodKey])
  | dict es =>
    simp only [pySet] at hs
    cases hs
    trivial
  | slist l =>
    cases k with
    | s k2 => exact absurd hg (by simp [goodKey])
    | i n =>
      simp only [pySet] at hs
      cases hsl : slistSet l n x with
      | none => rw [hsl] at hs; cases hs
      | some l2 =>
        rw [hsl] at hs
        cases hs
        exact hg

/-! The decoder walk over encoder output. -/

theorem walk_one_found (cur : PVal) (seg : List Char) (v : String)
    (c : Option PVal) (hget : pyGet cur (segKey seg) = .found c) :
    walk cur [seg] v = some cur := by
  simp only [walk]
  rw [hget]

theorem walk_one_miss (cur : PVal) (seg : List Char) (v : String)
    (hget : pyGet cur (segKey seg) = .miss) :
    walk cur [seg] v = pySet cur (segKey seg) (.str v) := by
  simp only [walk]
  rw [hget]

theorem walk_cons_found (cur child : PVal) (seg r : List Char)
    (q : List (List Char)) (v : String)
    (hget : pyGet cur (segKey seg) = .found (some child)) :
    walk cur (seg :: r :: q) v =
      match walk child (r :: q) v with
      | some c2 => pySet cur (segKey seg) c2
      | none => none := by
  simp only [walk]
  rw [hget]

theorem walk_cons_miss (cur : PVal) (seg r : List Char)
    (q : List (List Char)) (v : String)
    (hget : pyGet cur (segKey seg) = .miss) :
    walk cur (seg :: r :: q) v =
      match walk (if isNumericSeg r then .slist [] else .dict []) (r :: q) v with
      | some c2 => pySet cur (segKey seg) c2
      | none => none := by
  simp only [walk]
  rw [hget]

theorem processW_append (A B : List (List (List Char) × String)) :
    ∀ cur, processW (A ++ B) cur =
      match processW A cur with
      | some c => processW B c
      | none => none := by
  induction A with
  | nil => intro cur; rfl
  | cons it rest ih =>
    intro cur
    obtain ⟨p, v⟩ := it
    show processW ((p, v) :: (rest ++ B)) cur = _
    simp only [processW]
    cases hw : walk cur p v with
    | none => rfl
    | some c2 => exact ih c2

/-- Processing seg-prefixed items through an occupied slot. -/
theorem processW_found :
    ∀ (items : List (List (List Char) × String)) (seg : List Char)
      (cur child : PVal),
      (∀ it ∈ items, it.1 ≠ []) →
      goodKey cur (segKey seg) →
      pyGet cur (segKey seg) = .found (some child) →
      processW (items.map (fun pv => (seg :: pv.1, pv.2))) cur =
        match processW items child with
        | some child2 => pySet cur (segKey seg) child2
        | none => none := by
  intro items
  induction items with
  | nil =>
    intro seg cur child hne hg hget
    show some cur = pySet cur (segKey seg) child
    exact (pySet_get_self cur (segKey seg) child hg hget).symm
  | cons it rest ih =>
    obtain ⟨q, v⟩ := it
    intro seg cur child hne hg hget
    have hq : q ≠ [] := hne (q, v) (List.mem_cons_self _ _)
    obtain ⟨r, q', rfl⟩ : ∃ r q', q = r :: q' := by
      cases q with
      | nil => exact absurd rfl hq
      | cons r q' => exact ⟨r, q', rfl⟩
    show processW ((seg :: r :: q', v) :: rest.map _) cur = _
    simp only [processW]
    rw [walk_cons_found cur child seg r q' v hget]
    cases hw : walk child (r :: q') v with
    | none => rfl
    | some c2 =>
      obtain ⟨cur2, hc2⟩ := pySet_total cur (segKey seg) c2 hg
      show (match pySet cur (segKey seg) c2 with
        | some c => processW (rest.map (fun pv => (seg :: pv.1, pv.2))) c
        | none => none) =
        match processW rest c2 with
        | some child2 => pySet cur (segKey seg) child2
        | none => none
      rw [hc2]
      show processW (rest.map (fun pv => (seg :: pv.1, pv.2))) cur2 = _
      rw [ih seg cur2 c2 (fun it hm => hne it (List.mem_cons_of_mem _ hm))
        (pySet_goodKey cur (segKey seg) c2 cur2 hg hc2)
        (pySet_pyGet cur (segKey seg) c2 cur2 hg hc2)]
      cases hpw : processW rest c2 with
      | none => rfl
      | some c3 =>
        show pySet cur2 (segKey seg) c3 = pySet cur (segKey seg) c3
        exact pySet_pySet cur (segKey seg) c2 cur2 hg hc2 c3

/-- Processing a block of seg-prefixed items from a missing slot: the
first item creates the intermediate container dictated by its next
segment and the whole block is equivalent to running inside it. -/
theorem processW_miss (r1 : List Char) (q1 : List (List Char)) (v1 : String)
    (rest : List (List (List Char) × String)) (seg : List Char) (cur : PVal)
    (hne : ∀ it ∈ rest, it.1 ≠ [])
    (hg : goodKey cur (segKey seg))
    (hget : pyGet cur (segKey seg) = .miss) :
    processW (((r1 :: q1, v1) :: rest).map (fun pv => (seg :: pv.1, pv.2))) cur =
      match processW ((r1 :: q1, v1) :: rest)
          (if isNumericSeg r1 then .slist [] else .dict []) with
      | some child2 => pySet cur (segKey seg) child2
      | none => none := by
  show processW ((seg :: r1 :: q1, v1) :: rest.map _) cur = _
  simp only [processW]
  rw [walk_cons_miss cur seg r1 q1 v1 hget]
  cases hw : walk (if isNumericSeg r1 then .slist [] else .dict [])
      (r1 :: q1) v1 with
  | none => rfl
  | some c2 =>
    obtain ⟨cur2, hc2⟩ := pySet_total cur (segKey seg) c2 hg
    show (match pySet cur (segKey seg) c2 with
      | some c => processW (rest.map (fun pv => (seg :: pv.1, pv.2))) c
      | none => none) =
      match processW rest c2 with
      | some child2 => pySet cur (segKey seg) child2
      | none => none
    rw [hc2]
    show processW (rest.map (fun pv => (seg :: pv.1, pv.2))) cur2 = _
    rw [processW_found rest seg cur2 c2 hne
      (pySet_goodKey cur (segKey seg) c2 cur2 hg hc2)
      (pySet_pyGet cur (segKey seg) c2 cur2 hg hc2)]
    cases hpw : processW rest c2 with
    | none => rfl
    | some c3 =>
      show pySet cur2 (segKey seg) c3 = pySet cur (segKey seg) c3
      exact pySet_pySet cur (segKey seg) c2 cur2 hg hc2 c3

theorem validKey_not_numeric (k : String) (h : validKey k = true) :
    isNumericSeg k.data = false := by
  unfold validKey at h
  simp only [Bool.and_eq_true, Bool.not_eq_true'] at h
  exact h.2

theorem encodeEntries_cons_seg (es : List (String × QTree)) (seg : List Char) :
    encodeEntries [seg] es =
      (encodeEntries [] es).map (fun pv => (seg :: pv.1, pv.2)) := by
  rw [encodeEntries_prefix_nil es [seg]]
  rfl

theorem encodeElems_cons_seg (es : List (Option QTree)) (seg : List Char)
    (i : Nat) :
    encodeElems [seg] i es =
      (encodeElems [] i es).map (fun pv => (seg :: pv.1, pv.2)) := by
  rw [encodeElems_prefix_nil es [seg] i]
  rfl

/-- The first emitted item of a nonempty entry list starts with the first
entry's key. -/
theorem encodeEntries_head (k1 : String) (t1 : QTree)
    (rest : List (String × QTree)) (hwf1 : wfTree t1 = true) :
    ∃ q v more,
      encodeEntries [] ((k1, t1) :: rest) = ((k1.data :: q), v) :: more := by
  have hne := encodePaths_ne_nil t1 hwf1 [k1.data]
  cases hfp : encodePaths [k1.data] t1 with
  | nil => exact absurd hfp hne
  | cons pv tail =>
    obtain ⟨p1, w1⟩ := pv
    have hmem : (p1, w1) ∈ encodePaths [k1.data] t1 := by
      rw [hfp]
      exact List.mem_cons_self _ _
    obtain ⟨q0, hq0⟩ := encodePaths_starts t1 [k1.data] (p1, w1) hmem
    refine ⟨q0, w1, tail ++ encodeEntries [] rest, ?_⟩
    show encodePaths [k1.data] t1 ++ encodeEntries [] rest = _
    rw [hfp]
    show (p1, w1) :: (tail ++ encodeEntries [] rest) = _
    rw [show p1 = k1.data :: q0 from hq0]

/-- The first emitted item of a well-formed element list starts with a
decimal index. -/
theorem encodeElems_head : ∀ (es : List (Option QTree)) (i : Nat),
    wfElems es = true → isLastSome es = true →
    ∃ j q v more, encodeElems [] i es = ((natToDec j :: q), v) :: more := by
  intro es
  induction es with
  | nil => intro i _ hlast; exact absurd hlast (by decide)
  | cons o rest ih =>
    intro i hwf hlast
    cases o with
    | none =>
      show ∃ j q v more, encodeElems [] (i + 1) rest = _
      cases rest with
      | nil => exact absurd hlast (by decide)
      | cons o2 rest2 =>
        exact ih (i + 1) hwf (by
          cases o2 <;> cases rest2 <;> simp_all [isLastSome])
    | some t =>
      have hwf1 : wfTree t = true := by
        unfold wfElems at hwf
        simp only [Bool.and_eq_true] at hwf
        exact hwf.1
      have hne := encodePaths_ne_nil t hwf1 [natToDec i]
      cases hfp : encodePaths [natToDec i] t with
      | nil => exact absurd hfp hne
      | cons pv tail =>
        obtain ⟨p1, w1⟩ := pv
        have hmem : (p1, w1) ∈ encodePaths [natToDec i] t := by
          rw [hfp]
          exact List.mem_cons_self _ _
        obtain ⟨q0, hq0⟩ := encodePaths_starts t [natToDec i] (p1, w1) hmem
        refine ⟨i, q0, w1, tail ++ encodeElems [] (i + 1) rest, ?_⟩
        show encodePaths [natToDec i] t ++ encodeElems [] (i + 1) rest = _
        rw [hfp]
        show (p1, w1) :: (tail ++ encodeElems [] (i + 1) rest) = _
        rw [show p1 = natToDec i :: q0 from hq0]

/-- Running the encoded items of a dict body accumulates its entries in
order at the end of the target dict. -/
theorem entriesRun : ∀ (es : List (String × QTree)),
    (∀ k t, (k, t) ∈ es → ∀ (cur : PVal) (seg : List Char),
      goodKey cur (segKey seg) → pyGet cur (segKey seg) = .miss →
      processW (encodePaths [seg] t) cur = pySet cur (segKey seg) (toPVal t)) →
    wfEntries es = true → (es.map Prod.fst).Nodup →
    ∀ D : List (PKey × PVal),
      (∀ k t, (k, t) ∈ es → dictGet D (.s k) = .miss) →
      processW (encodeEntries [] es) (.dict D) =
        some (.dict (D ++ toPValEntries es)) := by
  intro es
  induction es with
  | nil =>
    intro _ _ _ D _
    show some (PVal.dict D) = some (PVal.dict (D ++ []))
    rw [List.append_nil]
  | cons kt rest ih =>
    obtain ⟨k1, t1⟩ := kt
    intro IH hwf hnd D hmiss
    have hvk : validKey k1 = true := by
      unfold wfEntries at hwf
      simp only [Bool.and_eq_true] at hwf
      exact hwf.1.1
    have hwfr : wfEntries rest = true := by
      unfold wfEntries at hwf
      simp only [Bool.and_eq_true] at hwf
      exact hwf.2
    rw [List.map_cons, List.nodup_cons] at hnd
    show processW (encodePaths [k1.data] t1 ++ encodeEntries [] rest)
      (.dict D) = _
    rw [processW_append]
    have hget : pyGet (.dict D) (segKey k1.data) = .miss := by
      show dictGet D (segKey k1.data) = .miss
      rw [validKey_segKey k1 hvk]
      exact hmiss k1 t1 (List.mem_cons_self _ _)
    have h1 : processW (encodePaths [k1.data] t1) (.dict D) =
        pySet (.dict D) (segKey k1.data) (toPVal t1) :=
      IH k1 t1 (List.mem_cons_self _ _) (.dict D) k1.data trivial hget
    have h2 : pySet (.dict D) (segKey k1.data) (toPVal t1) =
        some (.dict (D ++ [(.s k1, toPVal t1)])) := by
      rw [validKey_segKey k1 hvk]
      show some (PVal.dict (dictSet D (PKey.s k1) (toPVal t1))) =
        some (PVal.dict (D ++ [(PKey.s k1, toPVal t1)]))
      rw [dictSet_eq_append D (.s k1) (toPVal t1)
        (hmiss k1 t1 (List.mem_cons_self _ _))]
    rw [h1, h2]
    have hmiss2 : ∀ k t, (k, t) ∈ rest →
        dictGet (D ++ [(PKey.s k1, toPVal t1)]) (.s k) = .miss := by
      intro k t hm
      have hne1 : PKey.s k1 ≠ PKey.s k := by
        intro heq
        cases heq
        have hk : (k1 : String) ∈ List.map Prod.fst rest :=
          List.mem_map_of_mem Prod.fst hm
        exact hnd.1 hk
      rw [dictGet_append]
      rw [hmiss k t (List.mem_cons_of_mem _ hm)]
      show dictGet [(PKey.s k1, toPVal t1)] (.s k) = .miss
      simp only [dictGet, if_neg hne1]
    show processW (encodeEntries [] rest)
        (PVal.dict (D ++ [(PKey.s k1, toPVal t1)])) =
      some (PVal.dict (D ++ toPValEntries ((k1, t1) :: rest)))
    rw [ih (fun k t hm => IH k t (List.mem_cons_of_mem _ hm)) hwfr hnd.2
      (D ++ [(PKey.s k1, toPVal t1)]) hmiss2]
    rw [List.append_assoc]
    rfl

/-- Running the encoded items of a sparse-list body extends the target
list with the padding and elements of the body. -/
theorem elemsRun : ∀ (es : List (Option QTree)),
    (∀ t, some t ∈ es → ∀ (cur : PVal) (seg : List Char),
      goodKey cur (segKey seg) → pyGet cur (segKey seg) = .miss →
      processW (encodePaths [seg] t) cur = pySet cur (segKey seg) (toPVal t)) →
    wfElems es = true → isLastSome es = true →
    ∀ (i : Nat) (l : List (Option PVal)), 1 ≤ i → l.length ≤ i - 1 →
      processW (encodeElems [] i es) (.slist l) =
        some (.slist (l ++ List.replicate ((i - 1) - l.length) none ++
          toPValElems es)) := by
  intro es
  induction es with
  | nil => intro _ _ hlast; exact absurd hlast (by decide)
  | cons o rest ih =>
    intro IH hwf hlast i l h1 h2
    cases o with
    | none =>
      show processW (encodeElems [] (i + 1) rest) (.slist l) = _
      cases rest with
      | nil => exact absurd hlast (by decide)
      | cons o2 rest2 =>
        rw [ih (fun t hm => IH t (List.mem_cons_of_mem _ hm)) hwf
          (by cases o2 <;> cases rest2 <;> simp_all [isLastSome])
          (i + 1) l (by omega) (by omega)]
        have hrep : List.replicate ((i + 1 - 1) - l.length)
            (none : Option PVal) =
            List.replicate ((i - 1) - l.length) none ++ [none] := by
          rw [show (i + 1 - 1) - l.length = ((i - 1) - l.length) + 1 by omega]
          exact List.replicate_succ' _ _
        rw [hrep]
        simp [List.append_assoc, toPValElems]
    | some t =>
      have hwf1 : wfTree t = true := by
        unfold wfElems at hwf
        simp only [Bool.and_eq_true] at hwf
        exact hwf.1
      have hwfr : wfElems rest = true := by
        unfold wfElems at hwf
        simp only [Bool.and_eq_true] at hwf
        exact hwf.2
      show processW (encodePaths [natToDec i] t ++
        encodeElems [] (i + 1) rest) (.slist l) = _
      rw [processW_append]
      have hcast : ((i : Int) - 1) = ((i - 1 : Nat) : Int) := by omega
      have hg : goodKey (.slist l) (segKey (natToDec i)) := by
        rw [segKey_natToDec]
        show (0 : Int) ≤ (i : Int) - 1
        omega
      have hget : pyGet (.slist l) (segKey (natToDec i)) = .miss := by
        rw [segKey_natToDec]
        show pyIndex l ((i : Int) - 1) = .miss
        rw [hcast]
        exact pyIndex_nat_ge l (i - 1) h2
      rw [IH t (List.mem_cons_self _ _) (.slist l) (natToDec i) hg hget]
      have hset : pySet (.slist l) (segKey (natToDec i)) (toPVal t) =
          some (.slist (l ++ List.replicate ((i - 1) - l.length) none ++
            [some (toPVal t)])) := by
        rw [segKey_natToDec]
        show pySet (.slist l) (.i ((i : Int) - 1)) (toPVal t) = _
        rw [hcast]
        simp only [pySet, slistSet_shape l (i - 1) (toPVal t) h2]
      rw [hset]
      have hlen2 : (l ++ List.replicate ((i - 1) - l.length) none ++
          [some (toPVal t)]).length = i := by
        simp
        omega
      cases rest with
      | nil =>
        show some (PVal.slist (l ++ List.replicate ((i - 1) - l.length) none ++
          [some (toPVal t)])) = _
        simp [List.append_assoc, toPValElems]
      | cons o2 rest2 =>
        show processW (encodeElems [] (i + 1) (o2 :: rest2))
          (PVal.slist (l ++ List.replicate ((i - 1) - l.length) none ++
            [some (toPVal t)])) = _
        rw [ih (fun t2 hm => IH t2 (List.mem_cons_of_mem _ hm)) hwfr
          (by cases o2 <;> cases rest2 <;> simp_all [isLastSome])
          (i + 1) _ (by omega) (by rw [hlen2]; omega)]
        rw [hlen2]
        rw [show (i + 1 - 1) - i = 0 by omega]
        rw [List.replicate_zero, List.append_nil]
        simp [List.append_assoc, toPValElems]

/-- Running the encoded items of a well-formed subtree under one fresh
segment assigns exactly the subtree's reconstructed value at that
segment. -/
theorem processW_encode_aux :
    ∀ (N : Nat) (t : QTree), sizeOf t < N → wfTree t = true →
    ∀ (cur : PVal) (seg : List Char),
      goodKey cur (segKey seg) →
      pyGet cur (segKey seg) = .miss →
      processW (encodePaths [seg] t) cur =
        pySet cur (segKey seg) (toPVal t) := by
  intro N
  induction N with
  | zero => intro t h; exact absurd h (by omega)
  | succ N ihN =>
    intro t ht hwf cur seg hg hget
    cases t with
    | leaf s =>
      show processW [([seg], s)] cur = pySet cur (segKey seg) (PVal.str s)
      simp only [processW]
      rw [walk_one_miss cur seg s hget]
      cases hps : pySet cur (segKey seg) (PVal.str s) with
      | none => rfl
      | some c2 => rfl
    | map es =>
      unfold wfTree at hwf
      simp only [Bool.and_eq_true] at hwf
      obtain ⟨⟨hne0, hnd0⟩, hwfe⟩ := hwf
      have hnd : (es.map Prod.fst).Nodup := of_decide_eq_true hnd0
      cases es with
      | nil => exact absurd hne0 (by decide)
      | cons kt rest =>
        obtain ⟨k1, t1⟩ := kt
        have hvk : validKey k1 = true := by
          unfold wfEntries at hwfe
          simp only [Bool.and_eq_true] at hwfe
          exact hwfe.1.1
        have hwft1 : wfTree t1 = true := by
          unfold wfEntries at hwfe
          simp only [Bool.and_eq_true] at hwfe
          exact hwfe.1.2
        have IH2 : ∀ k t2, (k, t2) ∈ (k1, t1) :: rest →
            ∀ (cur2 : PVal) (seg2 : List Char),
            goodKey cur2 (segKey seg2) → pyGet cur2 (segKey seg2) = .miss →
            processW (encodePaths [seg2] t2) cur2 =
              pySet cur2 (segKey seg2) (toPVal t2) := by
          intro k t2 hm cur2 seg2 hg2 hget2
          exact ihN t2 (by
              have := sizeOf_mem_entries hm
              omega)
            (wfEntries_mem _ k t2 hm hwfe) cur2 seg2 hg2 hget2
        show processW (encodeEntries [seg] ((k1, t1) :: rest)) cur =
          pySet cur (segKey seg) (toPVal (QTree.map ((k1, t1) :: rest)))
        rw [encodeEntries_cons_seg]
        obtain ⟨q1, v1, more, hitems⟩ := encodeEntries_head k1 t1 rest hwft1
        rw [hitems]
        have hnemore : ∀ it ∈ more, it.1 ≠ [] := by
          intro it hm
          apply encodeEntries_paths_ne_nil ((k1, t1) :: rest) it
          rw [hitems]
          exact List.mem_cons_of_mem _ hm
        rw [processW_miss k1.data q1 v1 more seg cur hnemore hg hget]
        have hnum : ¬ (isNumericSeg k1.data = true) := by
          rw [validKey_not_numeric k1 hvk]
          decide
        rw [if_neg hnum]
        rw [← hitems]
        rw [entriesRun ((k1, t1) :: rest) IH2 hwfe hnd []
          (fun _ _ _ => rfl)]
        rfl
    | list es =>
      unfold wfTree at hwf
      simp only [Bool.and_eq_true] at hwf
      obtain ⟨⟨hne0, hlast⟩, hwfel⟩ := hwf
      have IH2 : ∀ t2, some t2 ∈ es →
          ∀ (cur2 : PVal) (seg2 : List Char),
          goodKey cur2 (segKey seg2) → pyGet cur2 (segKey seg2) = .miss →
          processW (encodePaths [seg2] t2) cur2 =
            pySet cur2 (segKey seg2) (toPVal t2) := by
        intro t2 hm cur2 seg2 hg2 hget2
        exact ihN t2 (by
            have := sizeOf_mem_elems hm
            omega)
          (wfElems_mem es t2 hm hwfel) cur2 seg2 hg2 hget2
      show processW (encodeElems [seg] 1 es) cur =
        pySet cur (segKey seg) (toPVal (QTree.list es))
      rw [encodeElems_cons_seg]
      obtain ⟨j, q1, v1, more, hitems⟩ := encodeElems_head es 1 hwfel hlast
      rw [hitems]
      have hnemore : ∀ it ∈ more, it.1 ≠ [] := by
        intro it hm
        apply encodeElems_paths_ne_nil es 1 it
        rw [hitems]
        exact List.mem_cons_of_mem _ hm
      rw [processW_miss (natToDec j) q1 v1 more seg cur hnemore hg hget]
      rw [if_pos (natToDec_numeric j)]
      rw [← hitems]
      rw [elemsRun es IH2 hwfel hlast 1 [] (by omega) (by simp)]
      rfl

/-- The subtree reconstruction lemma at top speed: no fuel. -/
theorem processW_encode (t : QTree) (hwf : wfTree t = true)
    (cur : PVal) (seg : List Char)
    (hg : goodKey cur (segKey seg)) (hget : pyGet cur (segKey seg) = .miss) :
    processW (encodePaths [seg] t) cur = pySet cur (segKey seg) (toPVal t) :=
  processW_encode_aux (sizeOf t + 1) t (by omega) hwf cur seg hg hget

/-! Encoded path segments never contain the separator. -/

theorem encodeEntries_dot_free (es : List (String × QTree))
    (IH : ∀ k t, (k, t) ∈ es → ∀ p, (∀ s ∈ p, ('.' : Char) ∉ s) →
      ∀ pv ∈ encodePaths p t, ∀ s ∈ pv.1, ('.' : Char) ∉ s)
    (hwf : wfEntries es = true) :
    ∀ p, (∀ s ∈ p, ('.' : Char) ∉ s) →
      ∀ pv ∈ encodeEntries p es, ∀ s ∈ pv.1, ('.' : Char) ∉ s := by
  induction es with
  | nil => intro p _ pv hm; cases hm
  | cons kt rest ih =>
    obtain ⟨k1, t1⟩ := kt
    intro p hp pv hm
    unfold wfEntries at hwf
    simp only [Bool.and_eq_true] at hwf
    rcases List.mem_append.mp hm with h1 | h2
    · refine IH k1 t1 (List.mem_cons_self _ _) (p ++ [k1.data]) ?_ pv h1
      intro s hs
      rcases List.mem_append.mp hs with hs1 | hs2
      · exact hp s hs1
      · rw [List.mem_singleton.mp hs2]
        exact validKey_no_dot k1 hwf.1.1
    · exact ih (fun k t hmm => IH k t (List.mem_cons_of_mem _ hmm))
        hwf.2 p hp pv h2

theorem encodeElems_dot_free (es : List (Option QTree))
    (IH : ∀ t, some t ∈ es → ∀ p, (∀ s ∈ p, ('.' : Char) ∉ s) →
      ∀ pv ∈ encodePaths p t, ∀ s ∈ pv.1, ('.' : Char) ∉ s) :
    ∀ p (i : Nat), (∀ s ∈ p, ('.' : Char) ∉ s) →
      ∀ pv ∈ encodeElems p i es, ∀ s ∈ pv.1, ('.' : Char) ∉ s := by
  induction es with
  | nil => intro p i _ pv hm; cases hm
  | cons o rest ih =>
    intro p i hp pv hm
    cases o with
    | none =>
      exact ih (fun t hmm => IH t (List.mem_cons_of_mem _ hmm)) p (i + 1)
        hp pv hm
    | some t =>
      rcases List.mem_append.mp hm with h1 | h2
      · refine IH t (List.mem_cons_self _ _) (p ++ [natToDec i]) ?_ pv h1
        intro s hs
        rcases List.mem_append.mp hs with hs1 | hs2
        · exact hp s hs1
        · rw [List.mem_singleton.mp hs2]
          exact natToDec_no_dot i
      · exact ih (fun t2 hmm => IH t2 (List.mem_cons_of_mem _ hmm)) p (i + 1)
          hp pv h2

theorem encodePaths_dot_free_aux :
    ∀ (N : Nat) (t : QTree), sizeOf t < N → wfTree t = true →
    ∀ p, (∀ s ∈ p, ('.' : Char) ∉ s) →
    ∀ pv ∈ encodePaths p t, ∀ s ∈ pv.1, ('.' : Char) ∉ s := by
  intro N
  induction N with
  | zero => intro t h; exact absurd h (by omega)
  | succ N ih =>
    intro t ht hwf p hp pv hm
    cases t with
    | leaf s0 =>
      have hpv : pv = (p, s0) := List.mem_singleton.mp hm
      rw [hpv]
      exact hp
    | map es =>
      unfold wfTree at hwf
      simp only [Bool.and_eq_true] at hwf
      exact encodeEntries_dot_free es
        (fun k t2 hmm => ih t2 (by
            have := sizeOf_mem_entries hmm
            omega)
          (wfEntries_mem es k t2 hmm hwf.2))
        hwf.2 p hp pv hm
    | list es =>
      unfold wfTree at hwf
      simp only [Bool.and_eq_true] at hwf
      exact encodeElems_dot_free es
        (fun t2 hmm => ih t2 (by
            have := sizeOf_mem_elems hmm
            omega)
          (wfElems_mem es t2 hmm hwf.2))
        p 1 hp pv hm

theorem encodePaths_dot_free (t : QTree) (hwf : wfTree t = true)
    (p : List (List Char)) (hp : ∀ s ∈ p, ('.' : Char) ∉ s) :
    ∀ pv ∈ encodePaths p t, ∀ s ∈ pv.1, ('.' : Char) ∉ s :=
  encodePaths_dot_free_aux (sizeOf t + 1) t (by omega) hwf p hp

/-- The `parse_args` fold over joined multi-segment items agrees with the
pointer walk over the raw items. -/
theorem foldl_enc_processW :
    ∀ (items : List (List (List Char) × String)) (cur : PVal),
      (∀ pv ∈ items, 2 ≤ pv.1.length ∧ ∀ s ∈ pv.1, ('.' : Char) ∉ s) →
      List.foldlM parse_args_step cur
        (items.map (fun pv => (joinPath pv.1, AVal.str pv.2))) =
        match processW items cur with
        | some c => Except.ok c
        | none => Except.error ParseErr.pyError := by
  intro items
  induction items with
  | nil => intro cur _; rfl
  | cons it rest ih =>
    obtain ⟨p, v⟩ := it
    intro cur hyp
    have hp := hyp (p, v) (List.mem_cons_self _ _)
    have hlen : 2 ≤ p.length := hp.1
    have hdots : ∀ s ∈ p, ('.' : Char) ∉ s := hp.2
    have hsplit : pySplitChar '.' (joinPath p).data = p :=
      pySplitChar_pyJoinChar '.' p
        (by
          intro he
          rw [he] at hlen
          exact absurd hlen (by decide))
        hdots
    have hstep : parse_args_step cur (joinPath p, AVal.str v) =
        match walk cur p v with
        | some args2 => .ok args2
        | none => .error .pyError := by
      simp only [parse_args_step]
      rw [hsplit]
      rw [if_neg (by
        intro he
        rw [he] at hlen
        exact absurd hlen (by omega))]
    rw [List.map_cons, List.foldlM_cons, hstep]
    simp only [processW]
    cases hw : walk cur p v with
    | none => rfl
    | some c2 =>
      show List.foldlM parse_args_step c2
          (rest.map (fun pv => (joinPath pv.1, AVal.str pv.2))) =
        match processW rest c2 with
        | some c => Except.ok c
        | none => Except.error ParseErr.pyError
      rw [ih c2 (fun pv hm => hyp pv (List.mem_cons_of_mem _ hm))]

theorem joinPath_single (k : String) : joinPath [k.data] = k := by
  cases k
  rfl

/-- The full `parse_args` fold over the encoding of a well-formed entry
list, starting from a dict that misses all its keys. -/
theorem parse_args_encodeTop :
    ∀ (es : List (String × QTree)) (D : List (PKey × PVal)),
      wfEntries es = true → (es.map Prod.fst).Nodup →
      (∀ k t, (k, t) ∈ es → dictGet D (.s k) = .miss) →
      List.foldlM parse_args_step (PVal.dict D) (encodeTop es) =
        .ok (.dict (D ++ toPValEntries es)) := by
  intro es
  induction es with
  | nil =>
    intro D _ _ _
    show Except.ok (PVal.dict D) = Except.ok (PVal.dict (D ++ []))
    rw [List.append_nil]
  | cons kt rest ih =>
    obtain ⟨k1, t1⟩ := kt
    intro D hwf hnd hmiss
    have hvk : validKey k1 = true := by
      unfold wfEntries at hwf
      simp only [Bool.and_eq_true] at hwf
      exact hwf.1.1
    have hwft1 : wfTree t1 = true := by
      unfold wfEntries at hwf
      simp only [Bool.and_eq_true] at hwf
      exact hwf.1.2
    have hwfr : wfEntries rest = true := by
      unfold wfEntries at hwf
      simp only [Bool.and_eq_true] at hwf
      exact hwf.2
    rw [List.map_cons, List.nodup_cons] at hnd
    have hget1 : pyGet (PVal.dict D) (segKey k1.data) = .miss := by
      show dictGet D (segKey k1.data) = .miss
      rw [validKey_segKey k1 hvk]
      exact hmiss k1 t1 (List.mem_cons_self _ _)
    have hgen : (∀ pv ∈ encodePaths [k1.data] t1, 2 ≤ pv.1.length) →
        List.foldlM parse_args_step (PVal.dict D)
          ((encodePaths [k1.data] t1).map
            (fun pv => (joinPath pv.1, AVal.str pv.2))) =
          .ok (.dict (D ++ [(PKey.s k1, toPVal t1)])) := by
      intro hlen2
      rw [foldl_enc_processW (encodePaths [k1.data] t1) (PVal.dict D)
        (fun pv hm => ⟨hlen2 pv hm,
          encodePaths_dot_free t1 hwft1 [k1.data]
            (fun s hs => by
              rw [List.mem_singleton.mp hs]
              exact validKey_no_dot k1 hvk) pv hm⟩)]
      rw [processW_encode t1 hwft1 (PVal.dict D) k1.data trivial hget1]
      have hps : pySet (PVal.dict D) (segKey k1.data) (toPVal t1) =
          some (PVal.dict (D ++ [(PKey.s k1, toPVal t1)])) := by
        rw [validKey_segKey k1 hvk]
        show some (PVal.dict (dictSet D (PKey.s k1) (toPVal t1))) =
          some (PVal.dict (D ++ [(PKey.s k1, toPVal t1)]))
        rw [dictSet_eq_append D (PKey.s k1) (toPVal t1)
          (hmiss k1 t1 (List.mem_cons_self _ _))]
      rw [hps]
    have hA : List.foldlM parse_args_step (PVal.dict D)
        ((encodePaths [k1.data] t1).map
          (fun pv => (joinPath pv.1, AVal.str pv.2))) =
        .ok (.dict (D ++ [(PKey.s k1, toPVal t1)])) := by
      cases t1 with
      | leaf s =>
        show List.foldlM parse_args_step (PVal.dict D)
          [(joinPath [k1.data], AVal.str s)] = _
        rw [joinPath_single k1, List.foldlM_cons]
        have hstep : parse_args_step (PVal.dict D) (k1, AVal.str s) =
            .ok (.dict (D ++ [(PKey.s k1, PVal.str s)])) := by
          simp only [parse_args_step]
          rw [pySplitChar_of_not_mem '.' k1.data (validKey_no_dot k1 hvk)]
          rw [if_pos (show [k1.data].length = 1 from rfl)]
          show (match pySet (PVal.dict D) (PKey.s k1) (PVal.str s) with
            | some args2 => Except.ok args2
            | none => Except.error ParseErr.pyError) = _
          show Except.ok (PVal.dict (dictSet D (PKey.s k1) (PVal.str s))) = _
          rw [dictSet_eq_append D (PKey.s k1) (PVal.str s)
            (hmiss k1 (QTree.leaf s) (List.mem_cons_self _ _))]
        rw [hstep]
        rfl
      | map es2 =>
        apply hgen
        intro pv hm
        have hm2 : pv ∈ (encodeEntries [] es2).map
            (fun pv => (k1.data :: pv.1, pv.2)) := by
          rw [← encodeEntries_cons_seg]
          exact hm
        obtain ⟨pv0, hpv0, rfl⟩ := List.mem_map.mp hm2
        have hne0 := encodeEntries_paths_ne_nil es2 pv0 hpv0
        have hpos := List.length_pos.mpr hne0
        show 2 ≤ (k1.data :: pv0.1).length
        simp only [List.length_cons]
        omega
      | list es2 =>
        apply hgen
        intro pv hm
        have hm2 : pv ∈ (encodeElems [] 1 es2).map
            (fun pv => (k1.data :: pv.1, pv.2)) := by
          rw [← encodeElems_cons_seg]
          exact hm
        obtain ⟨pv0, hpv0, rfl⟩ := List.mem_map.mp hm2
        have hne0 := encodeElems_paths_ne_nil es2 1 pv0 hpv0
        have hpos := List.length_pos.mpr hne0
        show 2 ≤ (k1.data :: pv0.1).length
        simp only [List.length_cons]
        omega
    have hmiss2 : ∀ k t, (k, t) ∈ rest →
        dictGet (D ++ [(PKey.s k1, toPVal t1)]) (.s k) = .miss := by
      intro k t hm
      have hne1 : PKey.s k1 ≠ PKey.s k := by
        intro heq
        cases heq
        have hk : (k1 : String) ∈ List.map Prod.fst rest :=
          List.mem_map_of_mem Prod.fst hm
        exact hnd.1 hk
      rw [dictGet_append]
      rw [hmiss k t (List.mem_cons_of_mem _ hm)]
      show dictGet [(PKey.s k1, toPVal t1)] (.s k) = .miss
      simp only [dictGet, if_neg hne1]
    show List.foldlM parse_args_step (PVal.dict D)
      (((encodePaths [k1.data] t1 ++ encodeEntries [] rest).map
        (fun pv => (joinPath pv.1, AVal.str pv.2)))) =
      Except.ok (PVal.dict (D ++ toPValEntries ((k1, t1) :: rest)))
    rw [List.map_append, List.foldlM_append, hA]
    show List.foldlM parse_args_step
      (PVal.dict (D ++ [(PKey.s k1, toPVal t1)])) (encodeTop rest) =
      Except.ok (PVal.dict (D ++ toPValEntries ((k1, t1) :: rest)))
    rw [ih (D ++ [(PKey.s k1, toPVal t1)]) hwfr hnd.2 hmiss2]
    rw [List.append_assoc]
    rfl

/-- C2.  Decoding the dotted-key query encoding of a well-formed argument
tree reproduces the tree exactly: `parse_args` over the encoded items,
started from the empty dict, returns precisely the tree's reconstructed
value (nested mappings as dicts, 1-based sparse lists with `None` at the
absent indices, string leaves); assigning a sparse list at 0-based index
`n` at or past its end extends it with `None` padding up to `n`; and a
non-string form value raises the invalid-parameter error. -/
theorem C2_parse_args_roundtrip (es : List (String × QTree))
    (h : wfTop es = true) :
    parse_args (encodeTop es) = .ok (.dict (toPValEntries es)) ∧
    (∀ (l : List (Option PVal)) (n : Nat) (x : PVal), l.length ≤ n →
      pySet (.slist l) (.i (n : Int)) x =
        some (.slist (l ++ List.replicate (n - l.length) none ++ [some x]))) ∧
    (∀ (args : PVal) (k : String),
      parse_args_step args (k, AVal.other) = .error .invalidParameter) := by
  refine ⟨?_, ?_, ?_⟩
  · unfold wfTop at h
    simp only [Bool.and_eq_true] at h
    have hnd := of_decide_eq_true h.1
    show List.foldlM parse_args_step (PVal.dict []) (encodeTop es) = _
    rw [parse_args_encodeTop es [] h.2 hnd (fun _ _ _ => rfl)]
    rw [List.nil_append]
  · intro l n x hle
    simp only [pySet, slistSet_shape l n x hle]
  · intro args k
    rfl

/-- C2 witness: the round-trip theorem applied to a concrete tree with a
flat entry, a nested mapping and a sparse list with absent indices. -/
theorem C2_parse_args_roundtrip_witness :
    wfTop c2Demo = true ∧
    parse_args (encodeTop c2Demo) = .ok (.dict (toPValEntries c2Demo)) :=
  ⟨by decide, (C2_parse_args_roundtrip c2Demo (by decide)).1⟩

end LibvirtAws
